import Mathlib

/-!
# Verification of the elements-miniscript descriptor core

Shallow embedding of `src/descriptor/mod.rs` of the `elements-miniscript`
repository.  Strings from the Rust side are modelled as `List Char`
(`Str` below).  The script-term type system ("miniscript"), the key
module, the checksum module and the per-template modules are external to
the provided source slice; where their behaviour is needed it is
modelled from the specification, as stated in each doc comment.
-/

set_option maxRecDepth 10000

namespace ElementsDescriptor

/-- Rust `&str` is modelled as a list of characters. -/
abbrev Str := List Char

/-- Abbreviation for turning a Lean string literal into `Str`. -/
def lit (s : String) : Str := s.toList

/-- `hPre pat s` is `s.starts_with(pat)` from Rust: also exactly the
condition `s.len() >= pat.len() && s[0..pat.len()] == pat` used in
`DescriptorType::from_str`. -/
def hPre : Str → Str → Bool
  | [], _ => true
  | _ :: _, [] => false
  | p :: ps, c :: cs => p == c && hPre ps cs

/-- Error type of the library, reduced to the kinds distinguished by the
claims under verification (the full taxonomy is external). -/
inductive Error where
  /-- syntax, checksum or context error -/
  | badDescriptor : Error
  /-- `Error::MultipathDescLenMismatch` -/
  | multipathDescLenMismatch : Error
  /-- satisfaction impossible -/
  | couldNotSatisfy : Error
deriving DecidableEq, Repr

/-- `DescriptorType` from `src/descriptor/mod.rs` lines 71-101. -/
inductive DescriptorType where
  | bare | sh | pkh | wpkh | wsh | shWsh | shWpkh
  | shSortedMulti | wshSortedMulti | shWshSortedMulti
  | legacyPegin | pegin | cov | tr
deriving DecidableEq, Repr

/-- `impl FromStr for DescriptorType` (`src/descriptor/mod.rs` lines
123-157): ordered structural prefix matching, every branch returns `Ok`. -/
def descriptorTypeFromStr (s : Str) : Except Error DescriptorType :=
  if hPre (lit "legacy_pegin") s then .ok .legacyPegin
  else if hPre (lit "pegin") s then .ok .pegin
  else if hPre (lit "pkh") s then .ok .pkh
  else if hPre (lit "wpkh") s then .ok .wpkh
  else if hPre (lit "sh(wsh") s then .ok .shWsh
  else if hPre (lit "sh(wpkh") s then .ok .shWpkh
  else if hPre (lit "sh(sortedmulti") s then .ok .shSortedMulti
  else if hPre (lit "sh(wsh(sortedmulti") s then .ok .shWshSortedMulti
  else if hPre (lit "sh") s then .ok .sh
  else if hPre (lit "wsh(sortedmulti") s then .ok .wshSortedMulti
  else if hPre (lit "wsh") s then .ok .wsh
  else if hPre (lit "covwsh") s then .ok .cov
  else .ok .bare

/-! ## The descriptor data model

The per-template payload types (`Bare`, `Pkh`, `Wpkh`, `Sh`/`ShInner`,
`Wsh`/`WshInner`, `SortedMultiVec`, `Tr`/`TapTree`, `LegacyCSFSCov`)
live in modules outside the provided source slice; their shapes are
modelled from the specification (§3 data-model table) and from the uses
visible in `mod.rs` (`ShInner::Wsh/Wpkh/SortedMulti/Ms`,
`WshInner::SortedMulti/Ms`, `Tr` internal key + optional tree,
`LegacyCSFSCov` key + script term). -/

/-- Modelled from the spec: the external script-term type
(`Miniscript`).  Only its role as a tree with key leaves and extension
opcode leaves matters here; a representative fragment with a key leaf,
two combinators and an extension-argument leaf (covenant opcode,
available only under extension-aware contexts) is used. -/
inductive Ms (Pk : Type) where
  | pk : Pk → Ms Pk
  | andV : Ms Pk → Ms Pk → Ms Pk
  | orD : Ms Pk → Ms Pk → Ms Pk
  /-- an extension (covenant/introspection) opcode leaf with its argument -/
  | extOp : Nat → Ms Pk
deriving DecidableEq, Repr

/-- Modelled from the spec: `SortedMultiVec` — threshold plus key vector. -/
structure SortedMultiVec (Pk : Type) where
  k : Nat
  pks : List Pk
deriving DecidableEq, Repr

/-- Modelled from the spec: `Wpkh` payload — one (compressed) key. -/
structure Wpkh (Pk : Type) where
  pk : Pk
deriving DecidableEq, Repr

/-- Modelled from the spec: `Pkh` payload — one key. -/
structure Pkh (Pk : Type) where
  pk : Pk
deriving DecidableEq, Repr

/-- Modelled from the spec: `Bare` payload — a raw script term under the
legacy context (no extension opcodes). -/
structure Bare (Pk : Type) where
  ms : Ms Pk
deriving DecidableEq, Repr

/-- `WshInner` as used by `desc_type` (`mod.rs` lines 418-429). -/
inductive WshInner (Pk : Type) where
  | sortedMulti : SortedMultiVec Pk → WshInner Pk
  | ms : Ms Pk → WshInner Pk
deriving DecidableEq, Repr

/-- Modelled from the spec: `Wsh` payload. -/
structure Wsh (Pk : Type) where
  inner : WshInner Pk
deriving DecidableEq, Repr

/-- `ShInner` as used by `desc_type` (`mod.rs` lines 417-425). -/
inductive ShInner (Pk : Type) where
  | wsh : Wsh Pk → ShInner Pk
  | wpkh : Wpkh Pk → ShInner Pk
  | sortedMulti : SortedMultiVec Pk → ShInner Pk
  | ms : Ms Pk → ShInner Pk
deriving DecidableEq, Repr

/-- Modelled from the spec: `Sh` payload. -/
structure Sh (Pk : Type) where
  inner : ShInner Pk
deriving DecidableEq, Repr

/-- Modelled from the spec: the taproot script tree — a binary Merkle
tree of script leaves. -/
inductive TapTree (Pk : Type) where
  | leaf : Ms Pk → TapTree Pk
  | node : TapTree Pk → TapTree Pk → TapTree Pk
deriving DecidableEq, Repr

/-- Modelled from the spec: `Tr` payload — an internal key plus an
optional script tree.  The extension axis (`Tr<Pk, NoExt>` versus
`Tr<Pk, T>`) is represented by whether the tree contains `extOp`
leaves. -/
structure Tr (Pk : Type) where
  internalKey : Pk
  tree : Option (TapTree Pk)
deriving DecidableEq, Repr

/-- Modelled from the spec: `LegacyCSFSCov` payload — one key plus a
script term that may use covenant extension opcodes. -/
structure LegacyCSFSCov (Pk : Type) where
  pk : Pk
  ms : Ms Pk
deriving DecidableEq, Repr

/-- `Descriptor` (`src/descriptor/mod.rs` lines 213-231): the closed sum
type over script templates.  `Tr` carries an extension-free tree
(`Tr<Pk, NoExt>` in the source), `TrExt` a tree that may carry extension
opcodes (`Tr<Pk, T>`). -/
inductive Descriptor (Pk : Type) where
  | bare : Bare Pk → Descriptor Pk
  | pkh : Pkh Pk → Descriptor Pk
  | wpkh : Wpkh Pk → Descriptor Pk
  | sh : Sh Pk → Descriptor Pk
  | wsh : Wsh Pk → Descriptor Pk
  | tr : Tr Pk → Descriptor Pk
  | trExt : Tr Pk → Descriptor Pk
  | legacyCSFSCov : LegacyCSFSCov Pk → Descriptor Pk
deriving DecidableEq, Repr

/-- `Descriptor::desc_type` (`src/descriptor/mod.rs` lines 412-434). -/
def Descriptor.descType {Pk : Type} : Descriptor Pk → DescriptorType
  | .bare _ => .bare
  | .pkh _ => .pkh
  | .wpkh _ => .wpkh
  | .sh s =>
    match s.inner with
    | .wsh w =>
      match w.inner with
      | .sortedMulti _ => .shWshSortedMulti
      | .ms _ => .shWsh
    | .wpkh _ => .shWpkh
    | .sortedMulti _ => .shSortedMulti
    | .ms _ => .sh
  | .wsh w =>
    match w.inner with
    | .sortedMulti _ => .wshSortedMulti
    | .ms _ => .wsh
  | .legacyCSFSCov _ => .cov
  | .tr _ => .tr
  | .trExt _ => .tr

/-! ## Keys -/

/-- Modelled from the spec: `DescriptorPublicKey` — either a single
key, an extended key with a derivation path, or a multipath extended
key whose final multi-branch step yields one parallel path per listed
child number (§3 "Multipath extended key"). -/
inductive DKey where
  | single : Str → DKey
  | xpub : Str → List Nat → DKey
  | multiXPub : Str → List Nat → DKey
deriving DecidableEq, Repr

/-- Modelled from the spec: `DescriptorPublicKey::num_der_paths` — the
number of parallel derivation paths (1 for single-path keys, the number
of multi-branch children for a multipath key). -/
def DKey.numDerPaths : DKey → Nat
  | .single _ => 1
  | .xpub _ _ => 1
  | .multiXPub _ steps => steps.length

/-- Modelled from the spec: `DescriptorPublicKey::is_multipath`. -/
def DKey.isMultipathK : DKey → Bool
  | .multiXPub _ _ => true
  | _ => false

/-- Modelled from the spec: `DescriptorPublicKey::into_single_keys` —
the list of single-path projections of a key, one per parallel path, in
path-list order; a single-path key projects to itself alone. -/
def DKey.intoSingleKeys : DKey → List DKey
  | .multiXPub n steps => steps.map (fun a => DKey.xpub n [a])
  | k => [k]

/-- The key capabilities required by the generic descriptor operations
(the external `MiniscriptKey` contract, reduced to the queries the
verified operations use). -/
structure KeyOps (Pk : Type) where
  numDerPaths : Pk → Nat

/-- `KeyOps` for the abstract string placeholder key (a bare token has a
single derivation path). -/
def skOps : KeyOps Str := ⟨fun _ => 1⟩

/-- `KeyOps` for `DKey`. -/
def dkOps : KeyOps DKey := ⟨DKey.numDerPaths⟩

/-! ## Key-leaf traversal

The `ForEachKey` implementations of the payload types are outside the
provided slice; the spec describes `for_each_key`/`for_any_key` as a
short-circuiting universal/existential predicate over every key leaf,
visited in structural (left-to-right, depth-first) order.  They are
modelled by first listing the key leaves of each payload in that order
and then folding a possibly stateful predicate over the list (the Rust
closures are `FnMut`, hence the explicit state). -/

/-- Key leaves of a script term, in structural order. -/
def Ms.keys {Pk : Type} : Ms Pk → List Pk
  | .pk k => [k]
  | .andV l r => l.keys ++ r.keys
  | .orD l r => l.keys ++ r.keys
  | .extOp _ => []

/-- Key leaves of a taproot script tree, in structural order. -/
def TapTree.keys {Pk : Type} : TapTree Pk → List Pk
  | .leaf m => m.keys
  | .node l r => l.keys ++ r.keys

/-- Key leaves of a `WshInner`. -/
def WshInner.keys {Pk : Type} : WshInner Pk → List Pk
  | .sortedMulti smv => smv.pks
  | .ms m => m.keys

/-- Key leaves of a `ShInner`. -/
def ShInner.keys {Pk : Type} : ShInner Pk → List Pk
  | .wsh w => w.inner.keys
  | .wpkh w => [w.pk]
  | .sortedMulti smv => smv.pks
  | .ms m => m.keys

/-- Key leaves of a `Tr` (internal key first, then the tree's leaves). -/
def Tr.keys {Pk : Type} (t : Tr Pk) : List Pk :=
  t.internalKey :: (match t.tree with
    | none => []
    | some tt => tt.keys)

/-- Key leaves of a `LegacyCSFSCov` (the covenant key first, then the
script term's keys; the source checks `pred(&self.pk)` before the
script term). -/
def LegacyCSFSCov.keys {Pk : Type} (c : LegacyCSFSCov Pk) : List Pk :=
  c.pk :: c.ms.keys

/-- All key leaves of a descriptor, in structural order. -/
def Descriptor.keyLeaves {Pk : Type} : Descriptor Pk → List Pk
  | .bare b => b.ms.keys
  | .pkh p => [p.pk]
  | .wpkh w => [w.pk]
  | .sh s => s.inner.keys
  | .wsh w => w.inner.keys
  | .tr t => t.keys
  | .trExt t => t.keys
  | .legacyCSFSCov c => c.keys

/-- Stateful short-circuiting universal fold: `for_each_key` with an
`FnMut` closure.  Applies the closure to each key in order, stopping as
soon as it returns `false`. -/
def foldKeys {Pk σ : Type} (pred : σ → Pk → σ × Bool) : List Pk → σ → σ × Bool
  | [], s => (s, true)
  | k :: ks, s =>
    let (s1, b) := pred s k
    if b then foldKeys pred ks s1 else (s1, false)

/-- Stateful short-circuiting existential fold: `for_any_key` with an
`FnMut` closure.  Applies the closure to each key in order, stopping as
soon as it returns `true`. -/
def anyKeys {Pk σ : Type} (pred : σ → Pk → σ × Bool) : List Pk → σ → σ × Bool
  | [], s => (s, false)
  | k :: ks, s =>
    let (s1, b) := pred s k
    if b then (s1, true) else anyKeys pred ks s1

/-- `impl ForEachKey for Descriptor`, stateful form
(`src/descriptor/mod.rs` lines 795-811).  Every arm delegates to the
inner payload's `for_each_key` — modelled as the universal fold over its
key leaves — EXCEPT the `LegacyCSFSCov` arm, which the source delegates
to `cov.for_any_key(pred)` (line 806), the existential fold. -/
def Descriptor.forEachKeyM {Pk σ : Type} (d : Descriptor Pk)
    (pred : σ → Pk → σ × Bool) (s : σ) : σ × Bool :=
  match d with
  | .bare b => foldKeys pred b.ms.keys s
  | .pkh p => foldKeys pred [p.pk] s
  | .wpkh w => foldKeys pred [w.pk] s
  | .wsh w => foldKeys pred w.inner.keys s
  | .sh s2 => foldKeys pred s2.inner.keys s
  | .legacyCSFSCov c => anyKeys pred c.keys s
  | .tr t => foldKeys pred t.keys s
  | .trExt t => foldKeys pred t.keys s

/-- Stateless (Bool-valued) `Descriptor::for_each_key`. -/
def Descriptor.forEachKey {Pk : Type} (d : Descriptor Pk) (pred : Pk → Bool) : Bool :=
  (d.forEachKeyM (fun (_ : Unit) k => ((), pred k)) ()).2

/-- The state of the multipath length checker
(`enum MultipathLenChecker`, `src/descriptor/mod.rs` lines 1106-1111). -/
inductive Checker where
  | singlePath
  | multipathLen : Nat → Checker
  | lenMismatch
deriving DecidableEq, Repr

/-- One step of the closure passed to `for_each_key` by
`multipath_length_mismatch` (`src/descriptor/mod.rs` lines 1114-1130);
the closure always answers `true`. -/
def checkerStep {Pk : Type} (kops : KeyOps Pk) (ch : Checker) (k : Pk) : Checker × Bool :=
  (match kops.numDerPaths k with
   | 0 => ch
   | 1 => ch
   | n =>
     match ch with
     | .singlePath => .multipathLen n
     | .multipathLen len => if len != n then .lenMismatch else ch
     | .lenMismatch => ch,
   true)

/-- `Descriptor::multipath_length_mismatch`
(`src/descriptor/mod.rs` lines 1104-1133). -/
def Descriptor.multipathLengthMismatch {Pk : Type} (kops : KeyOps Pk)
    (d : Descriptor Pk) : Bool :=
  (d.forEachKeyM (checkerStep kops) Checker.singlePath).1 == Checker.lenMismatch

/-! ## Translator framework

`TranslatePk` for `Descriptor` dispatches per variant
(`src/descriptor/mod.rs` lines 743-758); the per-payload rewrites are
modelled from the spec (§4.1): the translator is called once per key
leaf in structural order, failing immediately on the first leaf-level
failure.  Only the key-translation query matters here (the embedded
script terms carry no hash leaves). -/

/-- Leaf-wise fallible rewrite of a script term. -/
def Ms.translatePk {P Q : Type} (f : P → Except Error Q) : Ms P → Except Error (Ms Q)
  | .pk k => (f k).map Ms.pk
  | .andV l r =>
    match l.translatePk f with
    | .error e => .error e
    | .ok l2 =>
      match r.translatePk f with
      | .error e => .error e
      | .ok r2 => .ok (.andV l2 r2)
  | .orD l r =>
    match l.translatePk f with
    | .error e => .error e
    | .ok l2 =>
      match r.translatePk f with
      | .error e => .error e
      | .ok r2 => .ok (.orD l2 r2)
  | .extOp n => .ok (.extOp n)

/-- Leaf-wise fallible rewrite of a taproot tree. -/
def TapTree.translatePk {P Q : Type} (f : P → Except Error Q) :
    TapTree P → Except Error (TapTree Q)
  | .leaf m => (m.translatePk f).map TapTree.leaf
  | .node l r =>
    match l.translatePk f with
    | .error e => .error e
    | .ok l2 =>
      match r.translatePk f with
      | .error e => .error e
      | .ok r2 => .ok (.node l2 r2)

/-- Leaf-wise fallible rewrite of a key list, aborting on the first
failure. -/
def transList {P Q : Type} (f : P → Except Error Q) : List P → Except Error (List Q)
  | [] => .ok []
  | p :: ps =>
    match f p with
    | .error e => .error e
    | .ok q =>
      match transList f ps with
      | .error e => .error e
      | .ok qs => .ok (q :: qs)

/-- Leaf-wise fallible rewrite of a sorted-multi vector. -/
def SortedMultiVec.translatePk {P Q : Type} (f : P → Except Error Q)
    (smv : SortedMultiVec P) : Except Error (SortedMultiVec Q) :=
  (transList f smv.pks).map fun pks2 => ⟨smv.k, pks2⟩

/-- Leaf-wise fallible rewrite of a `WshInner`. -/
def WshInner.translatePk {P Q : Type} (f : P → Except Error Q) :
    WshInner P → Except Error (WshInner Q)
  | .sortedMulti smv => (smv.translatePk f).map WshInner.sortedMulti
  | .ms m => (m.translatePk f).map WshInner.ms

/-- Leaf-wise fallible rewrite of a `ShInner`. -/
def ShInner.translatePk {P Q : Type} (f : P → Except Error Q) :
    ShInner P → Except Error (ShInner Q)
  | .wsh w => ((w.inner.translatePk f).map fun i => ShInner.wsh ⟨i⟩)
  | .wpkh w => (f w.pk).map fun k => ShInner.wpkh ⟨k⟩
  | .sortedMulti smv => (smv.translatePk f).map ShInner.sortedMulti
  | .ms m => (m.translatePk f).map ShInner.ms

/-- Leaf-wise fallible rewrite of a `Tr` (internal key first, then the
tree). -/
def Tr.translatePk {P Q : Type} (f : P → Except Error Q) : Tr P → Except Error (Tr Q)
  | ⟨ik, none⟩ =>
    match f ik with
    | .error e => .error e
    | .ok k2 => .ok ⟨k2, none⟩
  | ⟨ik, some tt⟩ =>
    match f ik with
    | .error e => .error e
    | .ok k2 =>
      match tt.translatePk f with
      | .error e => .error e
      | .ok tt2 => .ok ⟨k2, some tt2⟩

/-- `TranslatePk for Descriptor` (`src/descriptor/mod.rs` lines
743-758): per-variant dispatch to the payload rewrite. -/
def Descriptor.translatePk {P Q : Type} (f : P → Except Error Q) :
    Descriptor P → Except Error (Descriptor Q)
  | .bare b => (b.ms.translatePk f).map fun m => Descriptor.bare ⟨m⟩
  | .pkh p => (f p.pk).map fun k => Descriptor.pkh ⟨k⟩
  | .wpkh w => (f w.pk).map fun k => Descriptor.wpkh ⟨k⟩
  | .sh s => (s.inner.translatePk f).map fun i => Descriptor.sh ⟨i⟩
  | .wsh w => (w.inner.translatePk f).map fun i => Descriptor.wsh ⟨i⟩
  | .tr t => (t.translatePk f).map Descriptor.tr
  | .trExt t => (t.translatePk f).map Descriptor.trExt
  | .legacyCSFSCov c =>
    match f c.pk with
    | .error e => .error e
    | .ok k2 =>
      match c.ms.translatePk f with
      | .error e => .error e
      | .ok m2 => .ok (.legacyCSFSCov ⟨k2, m2⟩)

/-- Total (infallible) key map over a script term — used to state the
expected result of multipath expansion. -/
def Ms.mapKeys {P Q : Type} (g : P → Q) : Ms P → Ms Q
  | .pk k => .pk (g k)
  | .andV l r => .andV (l.mapKeys g) (r.mapKeys g)
  | .orD l r => .orD (l.mapKeys g) (r.mapKeys g)
  | .extOp n => .extOp n

/-- Total key map over a taproot tree. -/
def TapTree.mapKeys {P Q : Type} (g : P → Q) : TapTree P → TapTree Q
  | .leaf m => .leaf (m.mapKeys g)
  | .node l r => .node (l.mapKeys g) (r.mapKeys g)

/-- Total key map over a `WshInner`. -/
def WshInner.mapKeys {P Q : Type} (g : P → Q) : WshInner P → WshInner Q
  | .sortedMulti smv => .sortedMulti ⟨smv.k, smv.pks.map g⟩
  | .ms m => .ms (m.mapKeys g)

/-- Total key map over a `ShInner`. -/
def ShInner.mapKeys {P Q : Type} (g : P → Q) : ShInner P → ShInner Q
  | .wsh w => .wsh ⟨w.inner.mapKeys g⟩
  | .wpkh w => .wpkh ⟨g w.pk⟩
  | .sortedMulti smv => .sortedMulti ⟨smv.k, smv.pks.map g⟩
  | .ms m => .ms (m.mapKeys g)

/-- Total key map over a descriptor. -/
def Descriptor.mapKeys {P Q : Type} (g : P → Q) : Descriptor P → Descriptor Q
  | .bare b => .bare ⟨b.ms.mapKeys g⟩
  | .pkh p => .pkh ⟨g p.pk⟩
  | .wpkh w => .wpkh ⟨g w.pk⟩
  | .sh s => .sh ⟨s.inner.mapKeys g⟩
  | .wsh w => .wsh ⟨w.inner.mapKeys g⟩
  | .tr t => .tr ⟨g t.internalKey, t.tree.map (TapTree.mapKeys g)⟩
  | .trExt t => .trExt ⟨g t.internalKey, t.tree.map (TapTree.mapKeys g)⟩
  | .legacyCSFSCov c => .legacyCSFSCov ⟨g c.pk, c.ms.mapKeys g⟩

/-! ## Multipath expansion -/

/-- The `IndexChoser` translator of `into_single_descriptors`
(`src/descriptor/mod.rs` lines 1046-1062): single-path keys pass
through, a multipath key is replaced by its `i`-th single-path
projection, a missing projection is `Error::MultipathDescLenMismatch`. -/
def indexChoser (i : Nat) (k : DKey) : Except Error DKey :=
  match k with
  | .single _ => .ok k
  | .xpub _ _ => .ok k
  | .multiXPub _ _ =>
    match k.intoSingleKeys[i]? with
    | some k2 => .ok k2
    | none => .error .multipathDescLenMismatch

/-- The first collection pass of `into_single_descriptors`
(`src/descriptor/mod.rs` lines 1023-1042): the source runs
`self.for_any_key` — the spec-modelled short-circuiting existential over
the key leaves in structural order — with a stateful closure that
answers `false` on single-path keys and, at the first multipath key
encountered, records one clone of the descriptor per parallel path and
answers `true`.  That pass is equivalent to locating the first multipath
key leaf. -/
def Descriptor.findFirstMulti (d : Descriptor DKey) : Option DKey :=
  d.keyLeaves.find? DKey.isMultipathK

/-- The rewrite loop of `into_single_descriptors`
(`src/descriptor/mod.rs` lines 1064-1067): translate one clone per
index, aborting with the first error. -/
def transAll (d : Descriptor DKey) : List Nat → Except Error (List (Descriptor DKey))
  | [] => .ok []
  | i :: is2 =>
    match d.translatePk (indexChoser i) with
    | .error e => .error e
    | .ok d2 =>
      match transAll d is2 with
      | .error e => .error e
      | .ok ds => .ok (d2 :: ds)

/-- `Descriptor::into_single_descriptors`
(`src/descriptor/mod.rs` lines 1019-1070). -/
def Descriptor.intoSingleDescriptors (d : Descriptor DKey) :
    Except Error (List (Descriptor DKey)) :=
  match d.findFirstMulti with
  | none => .ok [d]
  | some k0 => transAll d (List.range k0.numDerPaths)

/-! ## String format

The serializer mirrors the canonical `Display` output visible in the
repository's tests ("elpkh(KEY)#checksum", "elsh(wpkh(KEY))#checksum",
"eltr(KEY,{A,B})#checksum", …); the checksum algorithm and the
expression parser live outside the provided slice and are modelled from
the spec (§4.6, §6): an 8-character checksum suffix computed from the
body, a missing checksum accepted on parse, and recursive-descent
parsing of `name(args…)` trees dispatched on the template name exactly
as `from_tree` (`mod.rs` lines 1190-1198) and `from_str` (lines
1206-1237) do. -/

/-- Characters that terminate a key token (expression-tree structure
characters plus the checksum separator). -/
def isDelim (c : Char) : Bool :=
  c == '(' || c == ')' || c == ',' || c == '{' || c == '}' || c == '#'

/-- The longest token run at the head of the input. -/
def tokTake (s : Str) : Str := s.takeWhile (fun c => !isDelim c)

/-- The input after its head token run. -/
def tokDrop (s : Str) : Str := s.dropWhile (fun c => !isDelim c)

/-- The decimal digit character for `d < 10`. -/
def digitChar (d : Nat) : Char := Char.ofNat (48 + d)

/-- The value of a decimal digit character. -/
def charDigit (c : Char) : Nat := c.toNat - 48

/-- Little-endian decimal digits of `n`, with explicit fuel (any fuel
at least `n` is exact). -/
def natDigits : Nat → Nat → List Nat
  | 0, _ => []
  | _ + 1, 0 => []
  | fuel + 1, n + 1 => ((n + 1) % 10) :: natDigits fuel ((n + 1) / 10)

/-- Value of a little-endian decimal digit list. -/
def natOfDigits : List Nat → Nat
  | [] => 0
  | d :: ds => d + 10 * natOfDigits ds

/-- Decimal rendering of a natural number. -/
def natRender (n : Nat) : Str :=
  if n = 0 then ['0'] else (natDigits n n).reverse.map digitChar

/-- Decimal parsing of a token. -/
def natParse (t : Str) : Except Error Nat :=
  if !t.isEmpty && t.all Char.isDigit then
    .ok (natOfDigits ((t.map charDigit).reverse))
  else .error .badDescriptor

/-- Modelled from the spec: the checksum character set (32 characters,
none of them structure characters). -/
def chkCharset : Str := lit "qpzry9x8gf2tvdw0s3jn54khce6mua7l"

/-- Modelled from the spec: the 8-character descriptor checksum of a
body string (the concrete polynomial is irrelevant to the verified
properties; only that it is a function of the body with characters from
`chkCharset`). -/
def checksum (s : Str) : Str :=
  let h := s.foldl (fun a c => (a * 1003 + c.toNat) % 4294967291) 1
  (List.range 8).map (fun i => chkCharset.getD ((h / 32 ^ i) % 32) 'q')

/-- Split a string at its first `#`, if any. -/
def splitHash : Str → Str × Option Str
  | [] => ([], none)
  | c :: r =>
    if c = '#' then ([], some r)
    else
      let (b, t) := splitHash r
      (c :: b, t)

/-- `verify_checksum`: a missing checksum is accepted, a present one
must match the recomputed checksum of the body. -/
def verifyChecksum (s : Str) : Except Error Str :=
  match splitHash s with
  | (body, none) => .ok body
  | (body, some suf) => if suf = checksum body then .ok body else .error .badDescriptor

/-- Whether a script term is free of extension opcodes (i.e. lives in
the `NoExt` instantiation). -/
def Ms.extFree {Pk : Type} : Ms Pk → Bool
  | .pk _ => true
  | .andV l r => l.extFree && r.extFree
  | .orD l r => l.extFree && r.extFree
  | .extOp _ => false

/-- Whether a taproot tree is free of extension opcodes. -/
def TapTree.extFree {Pk : Type} : TapTree Pk → Bool
  | .leaf m => m.extFree
  | .node l r => l.extFree && r.extFree

/-- Whether a `Tr` payload is free of extension opcodes. -/
def Tr.extFree {Pk : Type} (t : Tr Pk) : Bool :=
  match t.tree with
  | none => true
  | some tt => tt.extFree

/-- Canonical rendering of a script term. -/
def renderMs {Pk : Type} (rk : Pk → Str) : Ms Pk → Str
  | .pk k => lit "pk(" ++ rk k ++ [')']
  | .andV l r => lit "and_v(" ++ renderMs rk l ++ ',' :: renderMs rk r ++ [')']
  | .orD l r => lit "or_d(" ++ renderMs rk l ++ ',' :: renderMs rk r ++ [')']
  | .extOp n => lit "ext_op(" ++ natRender n ++ [')']

/-- Canonical rendering of a taproot tree. -/
def renderTree {Pk : Type} (rk : Pk → Str) : TapTree Pk → Str
  | .leaf m => renderMs rk m
  | .node l r => '{' :: renderTree rk l ++ ',' :: renderTree rk r ++ ['}']

/-- Rendering of a nonempty key list, including the closing paren. -/
def renderKeysL {Pk : Type} (rk : Pk → Str) : List Pk → Str
  | [] => [')']
  | [k] => rk k ++ [')']
  | k :: ks => rk k ++ ',' :: renderKeysL rk ks

/-- Canonical rendering of `sortedmulti(k,keys…)`, including the
closing paren. -/
def renderSmv {Pk : Type} (rk : Pk → Str) (smv : SortedMultiVec Pk) : Str :=
  lit "sortedmulti(" ++ natRender smv.k ++ ',' :: renderKeysL rk smv.pks

/-- Canonical rendering of a `WshInner`. -/
def renderWshInner {Pk : Type} (rk : Pk → Str) : WshInner Pk → Str
  | .sortedMulti smv => renderSmv rk smv
  | .ms m => renderMs rk m

/-- Canonical rendering of a `ShInner` (each nested form carries its
own closing paren). -/
def renderShInner {Pk : Type} (rk : Pk → Str) : ShInner Pk → Str
  | .wsh w => lit "wsh(" ++ renderWshInner rk w.inner ++ [')']
  | .wpkh w => lit "wpkh(" ++ rk w.pk ++ [')']
  | .sortedMulti smv => renderSmv rk smv
  | .ms m => renderMs rk m

/-- The descriptor body string (everything before the checksum),
matching the canonical `Display` output of each variant. -/
def renderBody {Pk : Type} (rk : Pk → Str) : Descriptor Pk → Str
  | .bare b => lit "el" ++ renderMs rk b.ms
  | .pkh p => lit "elpkh(" ++ rk p.pk ++ [')']
  | .wpkh w => lit "elwpkh(" ++ rk w.pk ++ [')']
  | .sh s => lit "elsh(" ++ renderShInner rk s.inner ++ [')']
  | .wsh w => lit "elwsh(" ++ renderWshInner rk w.inner ++ [')']
  | .tr t =>
    lit "eltr(" ++ rk t.internalKey ++
      (match t.tree with
       | none => []
       | some tt => ',' :: renderTree rk tt) ++ [')']
  | .trExt t =>
    lit "eltr(" ++ rk t.internalKey ++
      (match t.tree with
       | none => []
       | some tt => ',' :: renderTree rk tt) ++ [')']
  | .legacyCSFSCov c => lit "elcovwsh(" ++ rk c.pk ++ ',' :: renderMs rk c.ms ++ [')']

/-- `Display for Descriptor`: the body followed by `#` and the checksum
(the checksum suffix is always appended). -/
def renderDesc {Pk : Type} (rk : Pk → Str) (d : Descriptor Pk) : Str :=
  let body := renderBody rk d
  body ++ '#' :: checksum body

/-- Recursive-descent parser for script terms.  `allow` is whether
extension opcodes are accepted (the extension-aware versus `NoExt`
instantiation of the external parser). -/
def parseMs {Pk : Type} (pkP : Str → Except Error Pk) (allow : Bool) :
    Nat → Str → Except Error (Ms Pk × Str)
  | 0, _ => .error .badDescriptor
  | fuel + 1, s =>
    if hPre (lit "pk(") s then
      let s1 := s.drop 3
      match pkP (tokTake s1), tokDrop s1 with
      | .ok k, ')' :: r => .ok (.pk k, r)
      | _, _ => .error .badDescriptor
    else if hPre (lit "and_v(") s then
      match parseMs pkP allow fuel (s.drop 6) with
      | .ok (l, ',' :: s2) =>
        match parseMs pkP allow fuel s2 with
        | .ok (r, ')' :: s3) => .ok (.andV l r, s3)
        | _ => .error .badDescriptor
      | _ => .error .badDescriptor
    else if hPre (lit "or_d(") s then
      match parseMs pkP allow fuel (s.drop 5) with
      | .ok (l, ',' :: s2) =>
        match parseMs pkP allow fuel s2 with
        | .ok (r, ')' :: s3) => .ok (.orD l r, s3)
        | _ => .error .badDescriptor
      | _ => .error .badDescriptor
    else if hPre (lit "ext_op(") s then
      if allow then
        let s1 := s.drop 7
        match natParse (tokTake s1), tokDrop s1 with
        | .ok n, ')' :: r => .ok (.extOp n, r)
        | _, _ => .error .badDescriptor
      else .error .badDescriptor
    else .error .badDescriptor

/-- Recursive-descent parser for taproot trees. -/
def parseTree {Pk : Type} (pkP : Str → Except Error Pk) (allow : Bool) :
    Nat → Str → Except Error (TapTree Pk × Str)
  | 0, _ => .error .badDescriptor
  | fuel + 1, s =>
    if hPre (lit "\x7b") s then
      match parseTree pkP allow fuel (s.drop 1) with
      | .ok (l, ',' :: s2) =>
        match parseTree pkP allow fuel s2 with
        | .ok (r, '}' :: s3) => .ok (.node l r, s3)
        | _ => .error .badDescriptor
      | _ => .error .badDescriptor
    else
      match parseMs pkP allow (fuel + 1) s with
      | .ok (m, r) => .ok (.leaf m, r)
      | .error e => .error e

/-- Parser for a comma-separated key list terminated by `)`. -/
def parseKeys {Pk : Type} (pkP : Str → Except Error Pk) :
    Nat → Str → Except Error (List Pk × Str)
  | 0, _ => .error .badDescriptor
  | fuel + 1, s =>
    match pkP (tokTake s), tokDrop s with
    | .ok k, ',' :: s2 =>
      match parseKeys pkP fuel s2 with
      | .ok (ks, r) => .ok (k :: ks, r)
      | .error e => .error e
    | .ok k, ')' :: s2 => .ok ([k], s2)
    | _, _ => .error .badDescriptor

/-- Parser for the argument list of `sortedmulti(`, including the
closing paren. -/
def parseSmv {Pk : Type} (pkP : Str → Except Error Pk) (fuel : Nat) (s : Str) :
    Except Error (SortedMultiVec Pk × Str) :=
  match natParse (tokTake s), tokDrop s with
  | .ok n, ',' :: s2 =>
    match parseKeys pkP fuel s2 with
    | .ok (ks, r) => .ok (⟨n, ks⟩, r)
    | .error e => .error e
  | _, _ => .error .badDescriptor

/-- Parser for the inner form of `wsh(…)`. -/
def parseWshInner {Pk : Type} (pkP : Str → Except Error Pk) (fuel : Nat) (s : Str) :
    Except Error (WshInner Pk × Str) :=
  if hPre (lit "sortedmulti(") s then
    match parseSmv pkP fuel (s.drop 12) with
    | .ok (smv, r) => .ok (.sortedMulti smv, r)
    | .error e => .error e
  else
    match parseMs pkP false fuel s with
    | .ok (m, r) => .ok (.ms m, r)
    | .error e => .error e

/-- Parser for the inner form of `sh(…)`. -/
def parseShInner {Pk : Type} (pkP : Str → Except Error Pk) (fuel : Nat) (s : Str) :
    Except Error (ShInner Pk × Str) :=
  if hPre (lit "wpkh(") s then
    let s1 := s.drop 5
    match pkP (tokTake s1), tokDrop s1 with
    | .ok k, ')' :: r => .ok (.wpkh ⟨k⟩, r)
    | _, _ => .error .badDescriptor
  else if hPre (lit "wsh(") s then
    match parseWshInner pkP fuel (s.drop 4) with
    | .ok (wi, ')' :: r) => .ok (.wsh ⟨wi⟩, r)
    | _ => .error .badDescriptor
  else if hPre (lit "sortedmulti(") s then
    match parseSmv pkP fuel (s.drop 12) with
    | .ok (smv, r) => .ok (.sortedMulti smv, r)
    | .error e => .error e
  else
    match parseMs pkP false fuel s with
    | .ok (m, r) => .ok (.ms m, r)
    | .error e => .error e

/-- `Tr::from_str` (modelled from the spec; the source notes it
verifies the checksum itself).  `allow` distinguishes the
extension-free (`NoExt`) from the extension-aware instantiation. -/
def trParse {Pk : Type} (pkP : Str → Except Error Pk) (allow : Bool) (s : Str) :
    Except Error (Tr Pk) :=
  match verifyChecksum s with
  | .error e => .error e
  | .ok body =>
    if hPre (lit "eltr(") body then
      let s1 := body.drop 5
      match pkP (tokTake s1), tokDrop s1 with
      | .ok k, ')' :: r => if r = [] then .ok ⟨k, none⟩ else .error .badDescriptor
      | .ok k, ',' :: s2 =>
        match parseTree pkP allow s2.length s2 with
        | .ok (t, ')' :: r) => if r = [] then .ok ⟨k, some t⟩ else .error .badDescriptor
        | _ => .error .badDescriptor
      | _, _ => .error .badDescriptor
    else .error .badDescriptor

/-- The non-taproot body parse: `expression::Tree::from_str` followed by
`from_tree` (`mod.rs` lines 1190-1198), dispatching on the template
name — `elpkh`, `elwpkh`, `elsh`, `elcovwsh`, `elwsh`, anything else a
bare script. -/
def parseBody {Pk : Type} (pkP : Str → Except Error Pk) (body : Str) :
    Except Error (Descriptor Pk) :=
  if hPre (lit "elpkh(") body then
    let s1 := body.drop 6
    match pkP (tokTake s1), tokDrop s1 with
    | .ok k, [')'] => .ok (.pkh ⟨k⟩)
    | _, _ => .error .badDescriptor
  else if hPre (lit "elwpkh(") body then
    let s1 := body.drop 7
    match pkP (tokTake s1), tokDrop s1 with
    | .ok k, [')'] => .ok (.wpkh ⟨k⟩)
    | _, _ => .error .badDescriptor
  else if hPre (lit "elsh(") body then
    match parseShInner pkP body.length (body.drop 5) with
    | .ok (i, [')']) => .ok (.sh ⟨i⟩)
    | _ => .error .badDescriptor
  else if hPre (lit "elwsh(") body then
    match parseWshInner pkP body.length (body.drop 6) with
    | .ok (i, [')']) => .ok (.wsh ⟨i⟩)
    | _ => .error .badDescriptor
  else if hPre (lit "elcovwsh(") body then
    let s1 := body.drop 9
    match pkP (tokTake s1), tokDrop s1 with
    | .ok k, ',' :: s2 =>
      match parseMs pkP true s2.length s2 with
      | .ok (m, [')']) => .ok (.legacyCSFSCov ⟨k, m⟩)
      | _ => .error .badDescriptor
    | _, _ => .error .badDescriptor
  else if hPre (lit "el") body then
    match parseMs pkP false body.length (body.drop 2) with
    | .ok (m, []) => .ok (.bare ⟨m⟩)
    | _ => .error .badDescriptor
  else .error .badDescriptor

/-- `impl FromStr for Descriptor` (`src/descriptor/mod.rs` lines
1206-1237): require the `el` prefix; for `eltr`-prefixed strings first
try the extension-free `Tr` parse and only on failure the
extension-aware one; otherwise verify the checksum and parse the
expression tree; finally reject a multipath length mismatch. -/
def fromStrC {Pk : Type} (kops : KeyOps Pk) (pkP : Str → Except Error Pk) (s : Str) :
    Except Error (Descriptor Pk) :=
  if hPre (lit "el") s = false then .error .badDescriptor
  else
    let r : Except Error (Descriptor Pk) :=
      if hPre (lit "eltr") s then
        match trParse pkP false s with
        | .ok t => .ok (.tr t)
        | .error _ =>
          match trParse pkP true s with
          | .ok t => .ok (.trExt t)
          | .error e => .error e
      else
        match verifyChecksum s with
        | .error e => .error e
        | .ok body => parseBody pkP body
    match r with
    | .ok d =>
      if d.multipathLengthMismatch kops then .error .multipathDescLenMismatch
      else .ok d
    | .error e => .error e

/-- Key parser for the abstract string placeholder key: any nonempty
token. -/
def skParse (t : Str) : Except Error Str :=
  if t = [] then .error .badDescriptor else .ok t

/-- Rendering of a list of multipath steps (`a;b;c`). -/
def stepsRender : List Nat → Str
  | [] => []
  | [a] => natRender a
  | a :: rest => natRender a ++ ';' :: stepsRender rest

/-- Modelled from the spec (§6 key-leaf syntax): textual form of a
`DKey` — a token, `token/i` for an extended key, or `token/<a;b;c>` for
a multipath key. -/
def dkRender : DKey → Str
  | .single n => n
  | .xpub n path => n ++ (path.map (fun a => '/' :: natRender a)).flatten
  | .multiXPub n steps => n ++ '/' :: '<' :: stepsRender steps ++ ['>']

/-- Parser for the `<a;b;c>` multipath step list (terminated by `>` at
the end of the token). -/
def parseSteps : Nat → Str → Except Error (List Nat)
  | 0, _ => .error .badDescriptor
  | fuel + 1, s =>
    let tok := s.takeWhile Char.isDigit
    match natParse tok, s.drop tok.length with
    | .ok a, ';' :: r =>
      match parseSteps fuel r with
      | .ok as2 => .ok (a :: as2)
      | .error e => .error e
    | .ok a, ['>'] => .ok [a]
    | _, _ => .error .badDescriptor

/-- Modelled from the spec (§6 key-leaf syntax): parser for a `DKey`
token. -/
def dkParse (t : Str) : Except Error DKey :=
  let name := t.takeWhile (fun c => !(c == '/'))
  let rest := t.drop name.length
  if name = [] then .error .badDescriptor
  else
    match rest with
    | [] => .ok (.single name)
    | '/' :: '<' :: r =>
      match parseSteps r.length r with
      | .ok steps => .ok (.multiXPub name steps)
      | .error e => .error e
    | '/' :: r =>
      match natParse r with
      | .ok a => .ok (.xpub name [a])
      | .error e => .error e
    | _ => .error .badDescriptor

/-! ## Scripts, `unsigned_script_sig` and satisfaction dispatch

Scripts are byte lists.  The per-template script-encoding routines are
external (spec §1); only the wrapper structure visible in `mod.rs` is
embedded, with the encoding routines passed in as parameters. -/

/-- A data push of fewer than 76 bytes: one push-length opcode byte
followed by the data (sufficient for the redeem-script pushes used
here). -/
def pushSlice (data : List Nat) : List Nat := data.length :: data

/-- `Sh::unsigned_script_sig`, whose behaviour is pinned by the
repository's `satisfy` test (`mod.rs` lines 1634-1686): `sh(wpkh(..))`
yields the push of the wpkh witness program, `sh(wsh(..))` the push of
the wsh witness program, plain `sh(..)` and `sh(sortedmulti(..))` the
empty script.  The witness-program encoders are parameters. -/
def shUnsignedScriptSig {Pk : Type} (spkWpkh : Pk → List Nat)
    (spkWsh : WshInner Pk → List Nat) : ShInner Pk → List Nat
  | .wpkh w => pushSlice (spkWpkh w.pk)
  | .wsh w => pushSlice (spkWsh w.inner)
  | .sortedMulti _ => []
  | .ms _ => []

/-- `Descriptor::unsigned_script_sig` (`src/descriptor/mod.rs` lines
630-641): the empty script for every variant except `Sh`, which
delegates to `Sh::unsigned_script_sig`. -/
def Descriptor.unsignedScriptSig {Pk : Type} (spkWpkh : Pk → List Nat)
    (spkWsh : WshInner Pk → List Nat) : Descriptor Pk → List Nat
  | .bare _ => []
  | .pkh _ => []
  | .wpkh _ => []
  | .wsh _ => []
  | .sh s => shUnsignedScriptSig spkWpkh spkWsh s.inner
  | .legacyCSFSCov _ => []
  | .tr _ => []
  | .trExt _ => []

/-- Whether a descriptor is a P2SH-wrapped segwit form (`sh(wpkh(..))`
or `sh(wsh(..))`). -/
def Descriptor.isShWrappedSegwit {Pk : Type} : Descriptor Pk → Bool
  | .sh s =>
    match s.inner with
    | .wpkh _ => true
    | .wsh _ => true
    | _ => false
  | _ => false

/-- `elements::TxInWitness`, reduced to the fields relevant here (the
script witness written by `satisfy`, plus another field standing for the
remaining ones, to express that only the script witness changes). -/
structure TxInWitness where
  scriptWitness : List (List Nat)
  peginWitness : List (List Nat)
deriving DecidableEq, Repr

/-- `elements::TxIn` with the fields used by the `mod.rs` tests. -/
structure TxIn where
  previousOutput : Nat
  scriptSig : List Nat
  sequence : Nat
  isPegin : Bool
  assetIssuance : Nat
  witness : TxInWitness
deriving DecidableEq, Repr

/-- The per-variant witness-construction routines consumed by
`get_satisfaction` (external, spec §4.5): each answers with a witness
stack and a scriptSig, or fails.  The satisfier oracle is already
folded into each routine. -/
structure SatImpl (Pk : Type) where
  bare : Bare Pk → Except Error (List (List Nat) × List Nat)
  pkh : Pkh Pk → Except Error (List (List Nat) × List Nat)
  wpkh : Wpkh Pk → Except Error (List (List Nat) × List Nat)
  wsh : Wsh Pk → Except Error (List (List Nat) × List Nat)
  sh : Sh Pk → Except Error (List (List Nat) × List Nat)
  cov : LegacyCSFSCov Pk → Except Error (List (List Nat) × List Nat)
  tr : Tr Pk → Except Error (List (List Nat) × List Nat)
  trExt : Tr Pk → Except Error (List (List Nat) × List Nat)

/-- `Descriptor::get_satisfaction` (`src/descriptor/mod.rs` lines
685-699): pure per-variant dispatch. -/
def Descriptor.getSatisfaction {Pk : Type} (impl : SatImpl Pk) :
    Descriptor Pk → Except Error (List (List Nat) × List Nat)
  | .bare b => impl.bare b
  | .pkh p => impl.pkh p
  | .wpkh w => impl.wpkh w
  | .wsh w => impl.wsh w
  | .sh s => impl.sh s
  | .legacyCSFSCov c => impl.cov c
  | .tr t => impl.tr t
  | .trExt t => impl.trExt t

/-- `Descriptor::satisfy` (`src/descriptor/mod.rs` lines 723-731): run
`get_satisfaction`; on success write the witness stack into
`txin.witness.script_witness` and the scriptSig into `txin.script_sig`
and return `Ok(())`; on failure propagate the error (the `?` operator
returns before any write). -/
def Descriptor.satisfy {Pk : Type} (impl : SatImpl Pk) (d : Descriptor Pk)
    (txin : TxIn) : Except Error Unit × TxIn :=
  match d.getSatisfaction impl with
  | .error e => (.error e, txin)
  | .ok (w, ss) =>
    (.ok (), { txin with
                witness := { txin.witness with scriptWitness := w },
                scriptSig := ss })

/-- `DecidableEq` for `Except`, so that concrete parse results can be
checked by `decide`. -/
instance {ε α : Type} [DecidableEq ε] [DecidableEq α] : DecidableEq (Except ε α) := fun x y =>
  match x, y with
  | .ok a, .ok b => if h : a = b then isTrue (by rw [h]) else isFalse (by simp [h])
  | .error a, .error b => if h : a = b then isTrue (by rw [h]) else isFalse (by simp [h])
  | .ok _, .error _ => isFalse (by simp)
  | .error _, .ok _ => isFalse (by simp)

/-! ## Well-formedness and auxiliary definitions for the claim
statements -/

/-- A well-formed string-placeholder key: nonempty and free of the
structure characters (parenthesis, comma, braces, `#`). -/
def wfKeyS (k : Str) : Bool := !k.isEmpty && k.all (fun c => !isDelim c)

/-- Well-formed script term over string-placeholder keys. -/
def Ms.wfS : Ms Str → Bool
  | .pk k => wfKeyS k
  | .andV l r => l.wfS && r.wfS
  | .orD l r => l.wfS && r.wfS
  | .extOp _ => true

/-- Well-formed taproot tree over string-placeholder keys. -/
def TapTree.wfS : TapTree Str → Bool
  | .leaf m => m.wfS
  | .node l r => l.wfS && r.wfS

/-- Well-formed sorted-multi vector: nonempty well-formed key list. -/
def smvWfS (smv : SortedMultiVec Str) : Bool :=
  !smv.pks.isEmpty && smv.pks.all wfKeyS

/-- Whether a `WshInner` is free of extension opcodes. -/
def WshInner.extFreeW : WshInner Str → Bool
  | .sortedMulti _ => true
  | .ms m => m.extFree

/-- Whether a `ShInner` is free of extension opcodes. -/
def ShInner.extFreeI : ShInner Str → Bool
  | .wsh w => w.inner.extFreeW
  | .wpkh _ => true
  | .sortedMulti _ => true
  | .ms m => m.extFree

/-- Well-formed `WshInner`. -/
def WshInner.wfS : WshInner Str → Bool
  | .sortedMulti smv => smvWfS smv
  | .ms m => m.wfS

/-- Well-formed `ShInner`. -/
def ShInner.wfS : ShInner Str → Bool
  | .wsh w => w.inner.wfS
  | .wpkh w => wfKeyS w.pk
  | .sortedMulti smv => smvWfS smv
  | .ms m => m.wfS

/-- Well-formed `Tr` payload. -/
def Tr.wfS (t : Tr Str) : Bool :=
  wfKeyS t.internalKey &&
    (match t.tree with
     | none => true
     | some tt => tt.wfS)

/-- A descriptor value over string-placeholder keys that is
constructible by the core: keys well formed, and every script term that
the source types give the `NoExt` extension parameter (bare, sh, wsh,
and the `Tr` variant) free of extension opcodes. -/
def Descriptor.wfS : Descriptor Str → Bool
  | .bare b => b.ms.wfS && b.ms.extFree
  | .pkh p => wfKeyS p.pk
  | .wpkh w => wfKeyS w.pk
  | .sh s => s.inner.wfS && s.inner.extFreeI
  | .wsh w => w.inner.wfS && w.inner.extFreeW
  | .tr t => t.wfS && t.extFree
  | .trExt t => t.wfS
  | .legacyCSFSCov c => wfKeyS c.pk && c.ms.wfS

/-- The `i`-th single-path projection at the key level, as a total map:
multipath keys are replaced by their `i`-th projection, single-path
keys are unchanged. -/
def projKey (i : Nat) : DKey → DKey
  | .multiXPub n steps => .xpub n [steps.getD i 0]
  | k => k

/-- Whether any of the template prefixes recognized by
`DescriptorType::from_str` matches. -/
def recognizedPre (s : Str) : Bool :=
  hPre (lit "legacy_pegin") s || hPre (lit "pegin") s || hPre (lit "pkh") s ||
  hPre (lit "wpkh") s || hPre (lit "sh(wsh") s || hPre (lit "sh(wpkh") s ||
  hPre (lit "sh(sortedmulti") s || hPre (lit "sh(wsh(sortedmulti") s ||
  hPre (lit "sh") s || hPre (lit "wsh(sortedmulti") s || hPre (lit "wsh") s ||
  hPre (lit "covwsh") s

/-! ## Concrete example values used by the claim theorems -/

/-- A covenant descriptor with two keys. -/
def covTwoKeys : Descriptor Str := .legacyCSFSCov ⟨lit "A", .pk (lit "B")⟩

/-- A multipath key with two parallel paths. -/
def mk2 : DKey := .multiXPub (lit "M") [1, 2]

/-- A multipath key with three parallel paths. -/
def mk3 : DKey := .multiXPub (lit "N") [1, 2, 3]

/-- A covenant descriptor whose covenant key has two parallel paths
while a key inside its script term has three. -/
def covMismatch : Descriptor DKey := .legacyCSFSCov ⟨mk2, .pk mk3⟩

/-- An extension-free descriptor carried by the `TrExt` variant
(constructible through `Descriptor::new_tr_ext`). -/
def trExtPlain : Descriptor Str := .trExt ⟨lit "A", none⟩

/-- The `sh(wpkh(A))` descriptor. -/
def shWpkhEx : Descriptor Str := .sh ⟨.wpkh ⟨lit "A"⟩⟩

/-- A concrete satisfaction-implementation pack: the bare routine
succeeds, every other one fails. -/
def satImplEx : SatImpl Str :=
  ⟨fun _ => .ok ([[5]], [6]), fun _ => .error .couldNotSatisfy,
   fun _ => .error .couldNotSatisfy, fun _ => .error .couldNotSatisfy,
   fun _ => .error .couldNotSatisfy, fun _ => .error .couldNotSatisfy,
   fun _ => .error .couldNotSatisfy, fun _ => .error .couldNotSatisfy⟩

/-! # Theorems -/

theorem hPre_self_append (p r : Str) : hPre p (p ++ r) = true := by
  induction p with
  | nil => rfl
  | cons c cs ih => simpa [hPre] using ih

theorem hPre_cons_elim {c : Char} {p s : Str} (h : hPre (c :: p) s = true) :
    ∃ t, s = c :: t ∧ hPre p t = true := by
  cases s with
  | nil => simp [hPre] at h
  | cons c2 t =>
    simp only [hPre, Bool.and_eq_true, beq_iff_eq] at h
    exact ⟨t, by rw [h.1], h.2⟩

/-! ### String-format helper lemmas (towards C1) -/

theorem lit_pk : lit "pk(" = 'p' :: 'k' :: '(' :: [] := rfl

theorem lit_andv : lit "and_v(" = 'a' :: 'n' :: 'd' :: '_' :: 'v' :: '(' :: [] := rfl

theorem lit_ord : lit "or_d(" = 'o' :: 'r' :: '_' :: 'd' :: '(' :: [] := rfl

theorem lit_ext : lit "ext_op(" = 'e' :: 'x' :: 't' :: '_' :: 'o' :: 'p' :: '(' :: [] := rfl

theorem lit_smul :
    lit "sortedmulti(" =
      's' :: 'o' :: 'r' :: 't' :: 'e' :: 'd' :: 'm' :: 'u' :: 'l' :: 't' :: 'i' :: '(' :: [] := rfl

theorem lit_wpkhp : lit "wpkh(" = 'w' :: 'p' :: 'k' :: 'h' :: '(' :: [] := rfl

theorem lit_wshp : lit "wsh(" = 'w' :: 's' :: 'h' :: '(' :: [] := rfl

theorem lit_elpkh : lit "elpkh(" = 'e' :: 'l' :: 'p' :: 'k' :: 'h' :: '(' :: [] := rfl

theorem lit_elwpkh : lit "elwpkh(" = 'e' :: 'l' :: 'w' :: 'p' :: 'k' :: 'h' :: '(' :: [] := rfl

theorem lit_elsh : lit "elsh(" = 'e' :: 'l' :: 's' :: 'h' :: '(' :: [] := rfl

theorem lit_elwsh : lit "elwsh(" = 'e' :: 'l' :: 'w' :: 's' :: 'h' :: '(' :: [] := rfl

theorem lit_elcovwsh :
    lit "elcovwsh(" = 'e' :: 'l' :: 'c' :: 'o' :: 'v' :: 'w' :: 's' :: 'h' :: '(' :: [] := rfl

theorem lit_eltrp : lit "eltr(" = 'e' :: 'l' :: 't' :: 'r' :: '(' :: [] := rfl

theorem lit_el : lit "el" = 'e' :: 'l' :: [] := rfl

theorem tokTake_append {t : Str} (c : Char) (r : Str)
    (ht : ∀ x ∈ t, isDelim x = false) (hc : isDelim c = true) :
    tokTake (t ++ c :: r) = t := by
  induction t with
  | nil => simp [tokTake, List.takeWhile_cons, hc]
  | cons x xs ih =>
    have hx : isDelim x = false := ht x (by simp)
    simp only [List.cons_append, tokTake, List.takeWhile_cons, hx]
    simpa [tokTake] using ih fun y hy => ht y (by simp [hy])

theorem tokDrop_append {t : Str} (c : Char) (r : Str)
    (ht : ∀ x ∈ t, isDelim x = false) (hc : isDelim c = true) :
    tokDrop (t ++ c :: r) = c :: r := by
  induction t with
  | nil => simp [tokDrop, List.dropWhile_cons, hc]
  | cons x xs ih =>
    have hx : isDelim x = false := ht x (by simp)
    simp only [List.cons_append, tokDrop, List.dropWhile_cons, hx]
    simpa [tokDrop] using ih fun y hy => ht y (by simp [hy])

theorem digitChar_facts {d : Nat} (h : d < 10) :
    isDelim (digitChar d) = false ∧ Char.isDigit (digitChar d) = true
  ∧ charDigit (digitChar d) = d := by
  interval_cases d <;> exact ⟨by decide, by decide, by decide⟩

theorem natDigits_lt (fuel n : Nat) : ∀ d ∈ natDigits fuel n, d < 10 := by
  induction fuel generalizing n with
  | zero => simp [natDigits]
  | succ f ih =>
    cases n with
    | zero => simp [natDigits]
    | succ m =>
      intro d hd
      rw [natDigits] at hd
      rcases List.mem_cons.mp hd with rfl | hd
      · omega
      · exact ih _ d hd

theorem natOfDigits_natDigits (fuel n : Nat) (h : n ≤ fuel) :
    natOfDigits (natDigits fuel n) = n := by
  induction fuel generalizing n with
  | zero =>
    interval_cases n
    rfl
  | succ f ih =>
    cases n with
    | zero => rfl
    | succ m =>
      rw [natDigits, natOfDigits, ih ((m + 1) / 10) (by omega)]
      omega

theorem natDigits_ne_nil (fuel n : Nat) (h0 : 0 < n) (h : n ≤ fuel) :
    natDigits fuel n ≠ [] := by
  cases fuel with
  | zero => omega
  | succ f =>
    cases n with
    | zero => omega
    | succ m => simp [natDigits]

theorem natRender_chars (n : Nat) :
    ∀ c ∈ natRender n, Char.isDigit c = true ∧ isDelim c = false := by
  intro c hc
  rw [natRender] at hc
  by_cases h0 : n = 0
  · simp [h0] at hc
    subst hc
    exact ⟨by decide, by decide⟩
  · simp only [h0, if_false] at hc
    obtain ⟨d, hd, rfl⟩ := List.mem_map.mp hc
    have hd10 : d < 10 := natDigits_lt n n d (List.mem_reverse.mp hd)
    obtain ⟨h1, h2, -⟩ := digitChar_facts hd10
    exact ⟨h2, h1⟩

theorem natRender_ne_nil (n : Nat) : natRender n ≠ [] := by
  rw [natRender]
  by_cases h0 : n = 0
  · simp [h0]
  · simp only [h0, if_false, ne_eq, List.map_eq_nil_iff, List.reverse_eq_nil_iff]
    exact natDigits_ne_nil n n (by omega) le_rfl

theorem natParse_natRender (n : Nat) : natParse (natRender n) = .ok n := by
  rw [natParse]
  have hne : ¬ (natRender n).isEmpty := by
    simpa [List.isEmpty_iff] using natRender_ne_nil n
  have hdig : (natRender n).all Char.isDigit = true := by
    rw [List.all_eq_true]
    intro c hc
    exact (natRender_chars n c hc).1
  rw [if_pos (by simp [hne, hdig])]
  by_cases h0 : n = 0
  · subst h0
    rfl
  · rw [natRender, if_neg h0]
    have hmap : ((natDigits n n).reverse.map digitChar).map charDigit
        = (natDigits n n).reverse := by
      rw [List.map_map]
      refine List.map_congr_left ?_ |>.trans (List.map_id _)
      intro d hd
      exact (digitChar_facts (natDigits_lt n n d (List.mem_reverse.mp hd))).2.2
    rw [hmap, List.reverse_reverse]
    rw [natOfDigits_natDigits n n le_rfl]

theorem splitHash_append {b : Str} (t : Str) (hb : '#' ∉ b) :
    splitHash (b ++ '#' :: t) = (b, some t) := by
  induction b with
  | nil => simp [splitHash]
  | cons c cs ih =>
    have hc : ¬ c = '#' := fun h => hb (by simp [h])
    rw [List.cons_append, splitHash, if_neg hc, ih fun h => hb (by simp [h])]

theorem verifyChecksum_render (b : Str) (hb : '#' ∉ b) :
    verifyChecksum (b ++ '#' :: checksum b) = .ok b := by
  rw [verifyChecksum, splitHash_append _ hb]
  simp

theorem wfKeyS_elim {k : Str} (h : wfKeyS k = true) :
    k ≠ [] ∧ ∀ c ∈ k, isDelim c = false := by
  rw [wfKeyS, Bool.and_eq_true] at h
  constructor
  · intro hk
    rw [hk] at h
    simp at h
  · intro c hc
    simpa using List.all_eq_true.mp h.2 c hc

theorem not_delim_ne_hash {c : Char} (h : isDelim c = false) : ¬ c = '#' := by
  rintro rfl
  exact absurd h (by decide)

theorem noHash_key {k : Str} (h : wfKeyS k = true) : '#' ∉ k := fun hm =>
  not_delim_ne_hash ((wfKeyS_elim h).2 '#' hm) rfl

theorem noHash_natRender (n : Nat) : '#' ∉ natRender n := fun hm =>
  not_delim_ne_hash ((natRender_chars n '#' hm).2) rfl

theorem nhApp {a b : Str} (ha : '#' ∉ a) (hb : '#' ∉ b) : '#' ∉ a ++ b := fun h =>
  (List.mem_append.mp h).elim ha hb

theorem nhCons {c : Char} {t : Str} (hc : ¬ '#' = c) (ht : '#' ∉ t) : '#' ∉ c :: t := fun h =>
  (List.mem_cons.mp h).elim hc ht

theorem noHash_renderMs {m : Ms Str} (h : m.wfS = true) : '#' ∉ renderMs id m := by
  induction m with
  | pk k =>
    rw [renderMs]
    exact nhApp (nhApp (by decide) (noHash_key (by simpa [Ms.wfS] using h))) (by decide)
  | andV l r ihl ihr =>
    rw [Ms.wfS, Bool.and_eq_true] at h
    rw [renderMs]
    exact nhApp (nhApp (nhApp (by decide) (ihl h.1)) (nhCons (by decide) (ihr h.2))) (by decide)
  | orD l r ihl ihr =>
    rw [Ms.wfS, Bool.and_eq_true] at h
    rw [renderMs]
    exact nhApp (nhApp (nhApp (by decide) (ihl h.1)) (nhCons (by decide) (ihr h.2))) (by decide)
  | extOp n =>
    rw [renderMs]
    exact nhApp (nhApp (by decide) (noHash_natRender n)) (by decide)

theorem noHash_renderTree {t : TapTree Str} (h : t.wfS = true) : '#' ∉ renderTree id t := by
  induction t with
  | leaf m => exact noHash_renderMs (by simpa [TapTree.wfS] using h)
  | node l r ihl ihr =>
    rw [TapTree.wfS, Bool.and_eq_true] at h
    rw [renderTree]
    exact nhApp (nhApp (nhCons (by decide) (ihl h.1)) (nhCons (by decide) (ihr h.2)))
      (by decide)

theorem noHash_renderKeysL {ks : List Str} (h : ∀ k ∈ ks, wfKeyS k = true) :
    '#' ∉ renderKeysL id ks := by
  induction ks with
  | nil => decide
  | cons k ks ih =>
    cases ks with
    | nil =>
      rw [renderKeysL]
      exact nhApp (noHash_key (h k (by simp))) (by decide)
    | cons k2 ks2 =>
      rw [renderKeysL]
      exact nhApp (noHash_key (h k (by simp)))
        (nhCons (by decide) (ih fun x hx => h x (by simp [hx])))
      simp

theorem smvWfS_elim {smv : SortedMultiVec Str} (h : smvWfS smv = true) :
    smv.pks ≠ [] ∧ ∀ k ∈ smv.pks, wfKeyS k = true := by
  rw [smvWfS, Bool.and_eq_true] at h
  constructor
  · intro hk
    rw [hk] at h
    simp at h
  · intro k hk
    exact List.all_eq_true.mp h.2 k hk

theorem noHash_renderSmv {smv : SortedMultiVec Str} (h : smvWfS smv = true) :
    '#' ∉ renderSmv id smv := by
  rw [renderSmv]
  exact nhApp (nhApp (by decide) (noHash_natRender smv.k))
    (nhCons (by decide) (noHash_renderKeysL (smvWfS_elim h).2))

theorem noHash_renderWshInner {w : WshInner Str} (h : w.wfS = true) :
    '#' ∉ renderWshInner id w := by
  cases w with
  | sortedMulti smv => exact noHash_renderSmv (by simpa [WshInner.wfS] using h)
  | ms m => exact noHash_renderMs (by simpa [WshInner.wfS] using h)

theorem noHash_renderShInner {sh : ShInner Str} (h : sh.wfS = true) :
    '#' ∉ renderShInner id sh := by
  cases sh with
  | wsh w =>
    rw [renderShInner]
    exact nhApp (nhApp (by decide) (noHash_renderWshInner (by simpa [ShInner.wfS] using h)))
      (by decide)
  | wpkh w =>
    rw [renderShInner]
    exact nhApp (nhApp (by decide) (noHash_key (by simpa [ShInner.wfS] using h))) (by decide)
  | sortedMulti smv => exact noHash_renderSmv (by simpa [ShInner.wfS] using h)
  | ms m => exact noHash_renderMs (by simpa [ShInner.wfS] using h)

theorem noHash_renderTrBody {t : Tr Str} (h : t.wfS = true) :
    '#' ∉ renderBody id (Descriptor.tr t) := by
  obtain ⟨ik, tree⟩ := t
  rw [Tr.wfS, Bool.and_eq_true] at h
  cases tree with
  | none =>
    simp only [renderBody]
    exact nhApp (nhApp (nhApp (by decide) (noHash_key h.1)) (by decide)) (by decide)
  | some tt =>
    simp only [renderBody]
    exact nhApp (nhApp (nhApp (by decide) (noHash_key h.1))
      (nhCons (by decide) (noHash_renderTree (by simpa using h.2)))) (by decide)

theorem noHash_renderBody {d : Descriptor Str} (h : d.wfS = true) :
    '#' ∉ renderBody id d := by
  cases d with
  | bare b =>
    rw [Descriptor.wfS, Bool.and_eq_true] at h
    rw [renderBody]
    exact nhApp (by decide) (noHash_renderMs h.1)
  | pkh p =>
    rw [renderBody]
    exact nhApp (nhApp (by decide) (noHash_key (by simpa [Descriptor.wfS] using h)))
      (by decide)
  | wpkh w =>
    rw [renderBody]
    exact nhApp (nhApp (by decide) (noHash_key (by simpa [Descriptor.wfS] using h)))
      (by decide)
  | sh s =>
    rw [Descriptor.wfS, Bool.and_eq_true] at h
    rw [renderBody]
    exact nhApp (nhApp (by decide) (noHash_renderShInner h.1)) (by decide)
  | wsh w =>
    rw [Descriptor.wfS, Bool.and_eq_true] at h
    rw [renderBody]
    exact nhApp (nhApp (by decide) (noHash_renderWshInner h.1)) (by decide)
  | tr t =>
    rw [Descriptor.wfS, Bool.and_eq_true] at h
    exact noHash_renderTrBody h.1
  | trExt t =>
    have heq : renderBody id (Descriptor.trExt t) = renderBody id (Descriptor.tr t) := rfl
    rw [heq]
    exact noHash_renderTrBody (by simpa [Descriptor.wfS] using h)
  | legacyCSFSCov c =>
    rw [Descriptor.wfS, Bool.and_eq_true] at h
    rw [renderBody]
    exact nhApp (nhApp (nhApp (by decide) (noHash_key h.1))
      (nhCons (by decide) (noHash_renderMs h.2))) (by decide)

theorem parseMs_step_pk {Pk : Type} (pkP : Str → Except Error Pk) (allow : Bool)
    (f : Nat) (s : Str) :
    parseMs pkP allow (f + 1) ('p' :: 'k' :: '(' :: s) =
      (match pkP (tokTake s), tokDrop s with
       | .ok k, ')' :: r => .ok (.pk k, r)
       | _, _ => .error .badDescriptor) := rfl

theorem parseMs_step_andv {Pk : Type} (pkP : Str → Except Error Pk) (allow : Bool)
    (f : Nat) (s : Str) :
    parseMs pkP allow (f + 1) ('a' :: 'n' :: 'd' :: '_' :: 'v' :: '(' :: s) =
      (match parseMs pkP allow f s with
       | .ok (l, ',' :: s2) =>
         match parseMs pkP allow f s2 with
         | .ok (r, ')' :: s3) => .ok (.andV l r, s3)
         | _ => .error .badDescriptor
       | _ => .error .badDescriptor) := rfl

theorem parseMs_step_ord {Pk : Type} (pkP : Str → Except Error Pk) (allow : Bool)
    (f : Nat) (s : Str) :
    parseMs pkP allow (f + 1) ('o' :: 'r' :: '_' :: 'd' :: '(' :: s) =
      (match parseMs pkP allow f s with
       | .ok (l, ',' :: s2) =>
         match parseMs pkP allow f s2 with
         | .ok (r, ')' :: s3) => .ok (.orD l r, s3)
         | _ => .error .badDescriptor
       | _ => .error .badDescriptor) := rfl

theorem parseMs_step_ext {Pk : Type} (pkP : Str → Except Error Pk) (allow : Bool)
    (f : Nat) (s : Str) :
    parseMs pkP allow (f + 1) ('e' :: 'x' :: 't' :: '_' :: 'o' :: 'p' :: '(' :: s) =
      (if allow then
        match natParse (tokTake s), tokDrop s with
        | .ok n, ')' :: r => .ok (.extOp n, r)
        | _, _ => .error .badDescriptor
      else .error .badDescriptor) := rfl

theorem parseMs_render {m : Ms Str} {rest : Str} {fuel : Nat} {allow : Bool}
    (hf : (renderMs id m).length ≤ fuel) (hw : m.wfS = true)
    (ha : allow = true ∨ m.extFree = true) :
    parseMs skParse allow fuel (renderMs id m ++ rest) = .ok (m, rest) := by
  induction m generalizing rest fuel with
  | pk k =>
    have hlen : 4 ≤ fuel := by
      simp only [renderMs, lit_pk, List.length_append, List.length_cons] at hf
      omega
    obtain ⟨f, rfl⟩ : ∃ f, fuel = f + 1 := ⟨fuel - 1, by omega⟩
    have hwk : wfKeyS k = true := by simpa [Ms.wfS] using hw
    have hstep : renderMs id (Ms.pk k) ++ rest = 'p' :: 'k' :: '(' :: (k ++ ')' :: rest) := by
      simp [renderMs, lit_pk]
    rw [hstep, parseMs_step_pk,
      tokTake_append ')' rest (wfKeyS_elim hwk).2 (by decide),
      tokDrop_append ')' rest (wfKeyS_elim hwk).2 (by decide),
      skParse, if_neg (wfKeyS_elim hwk).1]
    rfl
  | andV l r ihl ihr =>
    rw [Ms.wfS, Bool.and_eq_true] at hw
    have hlen : (renderMs id l).length + (renderMs id r).length + 8 ≤ fuel := by
      simp only [renderMs, lit_andv, List.length_append, List.length_cons] at hf
      omega
    obtain ⟨f, rfl⟩ : ∃ f, fuel = f + 1 := ⟨fuel - 1, by omega⟩
    have hstep : renderMs id (Ms.andV l r) ++ rest
        = 'a' :: 'n' :: 'd' :: '_' :: 'v' :: '('
            :: (renderMs id l ++ (',' :: (renderMs id r ++ ')' :: rest))) := by
      simp [renderMs, lit_andv]
    have hal : allow = true ∨ l.extFree = true := by
      rcases ha with h | h
      · exact Or.inl h
      · rw [Ms.extFree, Bool.and_eq_true] at h
        exact Or.inr h.1
    have har : allow = true ∨ r.extFree = true := by
      rcases ha with h | h
      · exact Or.inl h
      · rw [Ms.extFree, Bool.and_eq_true] at h
        exact Or.inr h.2
    have hl := @ihl (',' :: (renderMs id r ++ ')' :: rest)) f (by omega) hw.1 hal
    have hr := @ihr (')' :: rest) f (by omega) hw.2 har
    rw [hstep, parseMs_step_andv]
    simp only [hl, hr]
  | orD l r ihl ihr =>
    rw [Ms.wfS, Bool.and_eq_true] at hw
    have hlen : (renderMs id l).length + (renderMs id r).length + 7 ≤ fuel := by
      simp only [renderMs, lit_ord, List.length_append, List.length_cons] at hf
      omega
    obtain ⟨f, rfl⟩ : ∃ f, fuel = f + 1 := ⟨fuel - 1, by omega⟩
    have hstep : renderMs id (Ms.orD l r) ++ rest
        = 'o' :: 'r' :: '_' :: 'd' :: '('
            :: (renderMs id l ++ (',' :: (renderMs id r ++ ')' :: rest))) := by
      simp [renderMs, lit_ord]
    have hal : allow = true ∨ l.extFree = true := by
      rcases ha with h | h
      · exact Or.inl h
      · rw [Ms.extFree, Bool.and_eq_true] at h
        exact Or.inr h.1
    have har : allow = true ∨ r.extFree = true := by
      rcases ha with h | h
      · exact Or.inl h
      · rw [Ms.extFree, Bool.and_eq_true] at h
        exact Or.inr h.2
    have hl := @ihl (',' :: (renderMs id r ++ ')' :: rest)) f (by omega) hw.1 hal
    have hr := @ihr (')' :: rest) f (by omega) hw.2 har
    rw [hstep, parseMs_step_ord]
    simp only [hl, hr]
  | extOp n =>
    have hallow : allow = true := by
      rcases ha with h | h
      · exact h
      · rw [Ms.extFree] at h
        exact absurd h (by decide)
    subst hallow
    have hlen : 8 ≤ fuel := by
      simp only [renderMs, lit_ext, List.length_append, List.length_cons] at hf
      omega
    obtain ⟨f, rfl⟩ : ∃ f, fuel = f + 1 := ⟨fuel - 1, by omega⟩
    have hstep : renderMs id (Ms.extOp n) ++ rest
        = 'e' :: 'x' :: 't' :: '_' :: 'o' :: 'p' :: '(' :: (natRender n ++ ')' :: rest) := by
      simp [renderMs, lit_ext]
    rw [hstep, parseMs_step_ext, if_pos rfl,
      tokTake_append ')' rest (fun x hx => (natRender_chars n x hx).2) (by decide),
      tokDrop_append ')' rest (fun x hx => (natRender_chars n x hx).2) (by decide),
      natParse_natRender]
    rfl

theorem parseMs_render_ext {m : Ms Str} {rest : Str} {fuel : Nat}
    (hf : (renderMs id m).length ≤ fuel) (hw : m.wfS = true) (hx : m.extFree = false) :
    parseMs skParse false fuel (renderMs id m ++ rest) = .error .badDescriptor := by
  induction m generalizing rest fuel with
  | pk k => exact absurd hx (by simp [Ms.extFree])
  | andV l r ihl ihr =>
    rw [Ms.wfS, Bool.and_eq_true] at hw
    have hlen : (renderMs id l).length + (renderMs id r).length + 8 ≤ fuel := by
      simp only [renderMs, lit_andv, List.length_append, List.length_cons] at hf
      omega
    obtain ⟨f, rfl⟩ : ∃ f, fuel = f + 1 := ⟨fuel - 1, by omega⟩
    have hstep : renderMs id (Ms.andV l r) ++ rest
        = 'a' :: 'n' :: 'd' :: '_' :: 'v' :: '('
            :: (renderMs id l ++ (',' :: (renderMs id r ++ ')' :: rest))) := by
      simp [renderMs, lit_andv]
    rw [hstep, parseMs_step_andv]
    by_cases hel : l.extFree = true
    · have hxr : r.extFree = false := by
        rw [Ms.extFree] at hx
        rw [hel] at hx
        simpa using hx
      have hl := @parseMs_render l (',' :: (renderMs id r ++ ')' :: rest)) f false
        (by omega) hw.1 (Or.inr hel)
      have hr := @ihr (')' :: rest) f (by omega) hw.2 hxr
      simp only [hl, hr]
    · have hxl : l.extFree = false := by
        simp at hel
        exact hel
      rw [@ihl (',' :: (renderMs id r ++ ')' :: rest)) f (by omega) hw.1 hxl]
  | orD l r ihl ihr =>
    rw [Ms.wfS, Bool.and_eq_true] at hw
    have hlen : (renderMs id l).length + (renderMs id r).length + 7 ≤ fuel := by
      simp only [renderMs, lit_ord, List.length_append, List.length_cons] at hf
      omega
    obtain ⟨f, rfl⟩ : ∃ f, fuel = f + 1 := ⟨fuel - 1, by omega⟩
    have hstep : renderMs id (Ms.orD l r) ++ rest
        = 'o' :: 'r' :: '_' :: 'd' :: '('
            :: (renderMs id l ++ (',' :: (renderMs id r ++ ')' :: rest))) := by
      simp [renderMs, lit_ord]
    rw [hstep, parseMs_step_ord]
    by_cases hel : l.extFree = true
    · have hxr : r.extFree = false := by
        rw [Ms.extFree] at hx
        rw [hel] at hx
        simpa using hx
      have hl := @parseMs_render l (',' :: (renderMs id r ++ ')' :: rest)) f false
        (by omega) hw.1 (Or.inr hel)
      have hr := @ihr (')' :: rest) f (by omega) hw.2 hxr
      simp only [hl, hr]
    · have hxl : l.extFree = false := by
        simp at hel
        exact hel
      rw [@ihl (',' :: (renderMs id r ++ ')' :: rest)) f (by omega) hw.1 hxl]
  | extOp n =>
    have hlen : 8 ≤ fuel := by
      simp only [renderMs, lit_ext, List.length_append, List.length_cons] at hf
      omega
    obtain ⟨f, rfl⟩ : ∃ f, fuel = f + 1 := ⟨fuel - 1, by omega⟩
    have hstep : renderMs id (Ms.extOp n) ++ rest
        = 'e' :: 'x' :: 't' :: '_' :: 'o' :: 'p' :: '(' :: (natRender n ++ ')' :: rest) := by
      simp [renderMs, lit_ext]
    rw [hstep, parseMs_step_ext, if_neg (by simp)]

/-- C10: `DescriptorType::from_str` is total — it returns `Ok` on every
input — and classifies every string matching none of its recognized
template prefixes, in particular every string carrying the `el`
elements prefix, as `Bare`. -/
theorem C10_descriptor_type_from_str_total (s : Str) :
    (descriptorTypeFromStr s).isOk = true
  ∧ (recognizedPre s = false → descriptorTypeFromStr s = .ok .bare)
  ∧ (hPre (lit "el") s = true → descriptorTypeFromStr s = .ok .bare) := by
  refine ⟨?_, ?_, ?_⟩
  · unfold descriptorTypeFromStr
    simp only [apply_ite Except.isOk]
    simp [Except.isOk, Except.toBool]
  · intro h
    simp only [recognizedPre, Bool.or_eq_false_iff] at h
    obtain ⟨⟨⟨⟨⟨⟨⟨⟨⟨⟨⟨h1, h2⟩, h3⟩, h4⟩, h5⟩, h6⟩, h7⟩, h8⟩, h9⟩, h10⟩, h11⟩, h12⟩ := h
    simp [descriptorTypeFromStr, h1, h2, h3, h4, h5, h6, h7, h8, h9, h10, h11, h12]
  · intro h
    obtain ⟨t, rfl, h2⟩ := hPre_cons_elim h
    obtain ⟨t2, rfl, -⟩ := hPre_cons_elim h2
    rfl

/-- C10 witness. -/
theorem C10_descriptor_type_from_str_total_witness :
    recognizedPre (lit "elwpkh(A)") = false
  ∧ hPre (lit "el") (lit "elwpkh(A)") = true
  ∧ descriptorTypeFromStr (lit "elwpkh(A)") = .ok .bare :=
  ⟨by decide, by decide,
    (C10_descriptor_type_from_str_total (lit "elwpkh(A)")).2.2 (by decide)⟩

/-- C6: the prefix-order bug of `DescriptorType::from_str`.  A string
beginning with `sh(wsh(sortedmulti` is classified `ShWsh`, not
`ShWshSortedMulti` as the claim requires, because the `sh(wsh` test at
line 137 runs before the `sh(wsh(sortedmulti` test at line 143; the
second half of the claim (strings beginning with `wsh(sortedmulti` are
classified `WshSortedMulti`) does hold. -/
theorem C6_prefix_order_evidence :
    descriptorTypeFromStr (lit "sh(wsh(sortedmulti(2,A,B)))") = .ok .shWsh
  ∧ DescriptorType.shWsh ≠ DescriptorType.shWshSortedMulti
  ∧ (∀ r : Str, descriptorTypeFromStr (lit "sh(wsh(sortedmulti" ++ r) = .ok .shWsh)
  ∧ (∀ r : Str, descriptorTypeFromStr (lit "wsh(sortedmulti" ++ r) = .ok .wshSortedMulti) :=
  ⟨by decide, by decide, fun _ => rfl, fun _ => rfl⟩

/-- C4: the `for_each_key` bug for the covenant variant — the source
delegates `Descriptor::for_each_key` to `cov.for_any_key` (line 806),
so on a covenant descriptor with keys `A` and `B` a predicate holding
only on `A` makes `for_each_key` answer `true` although it fails on the
key leaf `B`. -/
theorem C4_for_each_key_covenant_evidence :
    covTwoKeys.forEachKey (fun k => k == lit "A") = true
  ∧ (lit "B") ∈ covTwoKeys.keyLeaves
  ∧ ((lit "B" : Str) == lit "A") = false := by
  decide

/-- C2: a covenant descriptor carrying two multipath keys with
differing path counts (2 and 3) is not flagged by
`multipath_length_mismatch` — the covenant arm of `for_each_key` stops
after the first key leaf — and is therefore accepted by `from_str`. -/
theorem C2_covenant_mismatch_accepted :
    mk2 ∈ covMismatch.keyLeaves
  ∧ mk3 ∈ covMismatch.keyLeaves
  ∧ mk2.isMultipathK = true ∧ mk3.isMultipathK = true
  ∧ mk2.numDerPaths = 2 ∧ mk3.numDerPaths = 3
  ∧ Descriptor.multipathLengthMismatch dkOps covMismatch = false
  ∧ fromStrC dkOps dkParse (renderDesc dkRender covMismatch) = .ok covMismatch := by
  decide

/-- C7 counterexample: `unsigned_script_sig` of `sh(wpkh(A))` is not
the empty script (it is the push of the witness program), refuting the
claim that P2SH-wrapped forms also yield the empty script. -/
theorem C7_counterexample :
    Descriptor.unsignedScriptSig (fun _ => List.replicate 20 7)
      (fun _ => List.replicate 34 9) shWpkhEx ≠ [] := by
  decide

/-- C7 amended: `unsigned_script_sig` is the empty script exactly for
the variants that are not P2SH-wrapped segwit forms; for `sh(wpkh(..))`
it is the push of the wpkh witness program and for `sh(wsh(..))` the
push of the wsh witness program. -/
theorem C7_unsigned_script_sig_amended (Pk : Type) (spkWpkh : Pk → List Nat)
    (spkWsh : WshInner Pk → List Nat) (d : Descriptor Pk) :
    (Descriptor.unsignedScriptSig spkWpkh spkWsh d = [] ↔ d.isShWrappedSegwit = false)
  ∧ (∀ w, d = .sh ⟨.wpkh w⟩ →
       Descriptor.unsignedScriptSig spkWpkh spkWsh d = pushSlice (spkWpkh w.pk))
  ∧ (∀ w, d = .sh ⟨.wsh w⟩ →
       Descriptor.unsignedScriptSig spkWpkh spkWsh d = pushSlice (spkWsh w.inner)) := by
  refine ⟨?_, ?_, ?_⟩
  · cases d with
    | sh s =>
      obtain ⟨inner⟩ := s
      cases inner <;>
        simp [Descriptor.unsignedScriptSig, Descriptor.isShWrappedSegwit,
          shUnsignedScriptSig, pushSlice]
    | bare b => simp [Descriptor.unsignedScriptSig, Descriptor.isShWrappedSegwit]
    | pkh p => simp [Descriptor.unsignedScriptSig, Descriptor.isShWrappedSegwit]
    | wpkh w => simp [Descriptor.unsignedScriptSig, Descriptor.isShWrappedSegwit]
    | wsh w => simp [Descriptor.unsignedScriptSig, Descriptor.isShWrappedSegwit]
    | tr t => simp [Descriptor.unsignedScriptSig, Descriptor.isShWrappedSegwit]
    | trExt t => simp [Descriptor.unsignedScriptSig, Descriptor.isShWrappedSegwit]
    | legacyCSFSCov c => simp [Descriptor.unsignedScriptSig, Descriptor.isShWrappedSegwit]
  · rintro w rfl
    rfl
  · rintro w rfl
    rfl

/-- C7 witness. -/
theorem C7_unsigned_script_sig_amended_witness :
    Descriptor.unsignedScriptSig (fun _ => [1, 2]) (fun _ : WshInner Str => [3]) shWpkhEx
      = pushSlice [1, 2] :=
  (C7_unsigned_script_sig_amended Str (fun _ => [1, 2]) (fun _ => [3]) shWpkhEx).2.1
    ⟨lit "A"⟩ rfl

/-- C8: `satisfy` returns `Ok` exactly when `get_satisfaction`
succeeds; on success it writes the witness stack and scriptSig into the
transaction input leaving every other field unchanged, and on failure
it propagates the error and leaves the input completely unmodified. -/
theorem C8_satisfy_atomicity (Pk : Type) (impl : SatImpl Pk) (d : Descriptor Pk)
    (txin : TxIn) :
    ((d.satisfy impl txin).1.isOk = true ↔ (d.getSatisfaction impl).isOk = true)
  ∧ (∀ e, d.getSatisfaction impl = .error e → d.satisfy impl txin = (.error e, txin))
  ∧ (∀ w ss, d.getSatisfaction impl = .ok (w, ss) →
       (d.satisfy impl txin).1 = .ok ()
     ∧ (d.satisfy impl txin).2 =
         { txin with
            witness := { txin.witness with scriptWitness := w },
            scriptSig := ss }) := by
  refine ⟨?_, ?_, ?_⟩
  · unfold Descriptor.satisfy
    cases h : d.getSatisfaction impl with
    | error e => simp [h, Except.isOk, Except.toBool]
    | ok p => obtain ⟨w, ss⟩ := p; simp [h, Except.isOk, Except.toBool]
  · intro e h
    unfold Descriptor.satisfy
    rw [h]
  · intro w ss h
    unfold Descriptor.satisfy
    rw [h]
    exact ⟨rfl, rfl⟩

/-- C8 witness. -/
theorem C8_satisfy_atomicity_witness :
    (Descriptor.satisfy satImplEx (Descriptor.bare ⟨Ms.pk (lit "A")⟩)
        ⟨0, [], 100, false, 0, ⟨[], []⟩⟩).2 =
      ⟨0, [6], 100, false, 0, ⟨[[5]], []⟩⟩ :=
  ((C8_satisfy_atomicity Str satImplEx (Descriptor.bare ⟨Ms.pk (lit "A")⟩)
      ⟨0, [], 100, false, 0, ⟨[], []⟩⟩).2.2 [[5]] [6] rfl).2

theorem fromStrC_eltr_step (Pk : Type) (kops : KeyOps Pk)
    (pkP : Str → Except Error Pk) (t4 : Str) :
    fromStrC kops pkP ('e' :: 'l' :: 't' :: 'r' :: t4) =
      (match ((match trParse pkP false ('e' :: 'l' :: 't' :: 'r' :: t4) with
               | .ok t => .ok (Descriptor.tr t)
               | .error _ =>
                 match trParse pkP true ('e' :: 'l' :: 't' :: 'r' :: t4) with
                 | .ok t => .ok (Descriptor.trExt t)
                 | .error e => .error e) : Except Error (Descriptor Pk)) with
       | .ok d =>
         if d.multipathLengthMismatch kops then .error .multipathDescLenMismatch
         else .ok d
       | .error e => .error e) := rfl

/-- C9: for an `eltr`-prefixed string, `from_str` attempts the
extension-free `Tr` parse first — on success the result is the `Tr`
variant and the extension-aware parser is never consulted — and only on
its failure the extension-aware parse, whose success yields the `TrExt`
variant. -/
theorem C9_tr_extension_free_first (Pk : Type) (kops : KeyOps Pk)
    (pkP : Str → Except Error Pk) (s : Str) :
    (∀ t : Tr Pk, hPre (lit "eltr") s = true → trParse pkP false s = .ok t →
       Descriptor.multipathLengthMismatch kops (.tr t) = false →
       fromStrC kops pkP s = .ok (.tr t))
  ∧ (∀ e : Error, hPre (lit "eltr") s = true → trParse pkP false s = .error e →
       fromStrC kops pkP s =
         (match trParse pkP true s with
          | .ok t =>
            if Descriptor.multipathLengthMismatch kops (Descriptor.trExt t) then
              .error .multipathDescLenMismatch
            else .ok (.trExt t)
          | .error e2 => .error e2)) := by
  constructor
  · intro t h htr hmm
    obtain ⟨u1, rfl, ha⟩ := hPre_cons_elim h
    obtain ⟨u2, rfl, hb⟩ := hPre_cons_elim ha
    obtain ⟨u3, rfl, hc⟩ := hPre_cons_elim hb
    obtain ⟨u4, rfl, -⟩ := hPre_cons_elim hc
    rw [fromStrC_eltr_step, htr]
    simp [hmm]
  · intro e h htr
    obtain ⟨u1, rfl, ha⟩ := hPre_cons_elim h
    obtain ⟨u2, rfl, hb⟩ := hPre_cons_elim ha
    obtain ⟨u3, rfl, hc⟩ := hPre_cons_elim hb
    obtain ⟨u4, rfl, -⟩ := hPre_cons_elim hc
    rw [fromStrC_eltr_step, htr]
    cases h2 : trParse pkP true ('e' :: 'l' :: 't' :: 'r' :: u4) with
    | ok t => simp
    | error e2 => simp

/-- C9 witness. -/
theorem C9_tr_extension_free_first_witness :
    hPre (lit "eltr") (renderDesc id (Descriptor.tr ⟨lit "K", none⟩ : Descriptor Str)) = true
  ∧ trParse skParse false (renderDesc id (Descriptor.tr ⟨lit "K", none⟩ : Descriptor Str))
      = .ok ⟨lit "K", none⟩
  ∧ fromStrC skOps skParse (renderDesc id (Descriptor.tr ⟨lit "K", none⟩ : Descriptor Str))
      = .ok (.tr ⟨lit "K", none⟩) :=
  ⟨by decide, by decide,
   (C9_tr_extension_free_first Str skOps skParse _).1 ⟨lit "K", none⟩
     (by decide) (by decide) (by decide)⟩

/-- C1 counterexample: the extension-free `TrExt` descriptor built by
`Descriptor::new_tr_ext` serializes to an extension-free `eltr(..)`
string, which `from_str` parses back into the `Tr` variant, so the
round trip does not return the original value. -/
theorem C1_counterexample :
    fromStrC skOps skParse (renderDesc id trExtPlain)
      = .ok (Descriptor.tr ⟨lit "A", none⟩)
  ∧ Descriptor.tr ⟨lit "A", none⟩ ≠ trExtPlain := by
  decide

/-- C5 counterexample: the well-formed descriptor string
`elsh(wpkh(A))#…` fully parses to a descriptor of type `ShWpkh`, but
the cheap classifier answers `Bare`. -/
theorem C5_counterexample :
    fromStrC skOps skParse (renderDesc id shWpkhEx) = .ok shWpkhEx
  ∧ shWpkhEx.descType = .shWpkh
  ∧ descriptorTypeFromStr (renderDesc id shWpkhEx) = .ok .bare
  ∧ DescriptorType.shWpkh ≠ DescriptorType.bare := by
  decide

/-- C5 amended: on every string accepted by `Descriptor::from_str`
(which requires the `el` prefix) the cheap classifier answers `Bare`,
so the two classifications agree exactly when the parsed descriptor is
a bare descriptor. -/
theorem C5_classifier_agreement_amended (Pk : Type) (kops : KeyOps Pk)
    (pkP : Str → Except Error Pk) (s : Str) (d : Descriptor Pk)
    (h : fromStrC kops pkP s = .ok d) :
    descriptorTypeFromStr s = .ok .bare
  ∧ (descriptorTypeFromStr s = .ok d.descType ↔ d.descType = .bare) := by
  have hel : hPre (lit "el") s = true := by
    by_contra hne
    rw [Bool.not_eq_true] at hne
    unfold fromStrC at h
    rw [hne] at h
    simp at h
  obtain ⟨t, rfl, h2⟩ := hPre_cons_elim hel
  obtain ⟨t2, rfl, -⟩ := hPre_cons_elim h2
  have hbare : descriptorTypeFromStr ('e' :: 'l' :: t2) = .ok .bare := rfl
  refine ⟨hbare, ?_, ?_⟩
  · intro hq
    rw [hbare] at hq
    exact (Except.ok.injEq _ _ ▸ congrArg id hq.symm : _)
  · intro hb
    rw [hb]
    exact hbare

/-- C5 amended witness. -/
theorem C5_classifier_agreement_amended_witness :
    descriptorTypeFromStr (renderDesc id shWpkhEx) = .ok .bare
  ∧ (descriptorTypeFromStr (renderDesc id shWpkhEx) = .ok shWpkhEx.descType
      ↔ shWpkhEx.descType = .bare) :=
  C5_classifier_agreement_amended Str skOps skParse _ shWpkhEx (by decide)

/-! ### Multipath expansion (C3) -/

theorem indexChoser_ok {i : Nat} {k : DKey}
    (h : k.isMultipathK = true → i < k.numDerPaths) :
    indexChoser i k = .ok (projKey i k) := by
  cases k with
  | single n => rfl
  | xpub n p => rfl
  | multiXPub n steps =>
    have hi : i < steps.length := h rfl
    simp [indexChoser, DKey.intoSingleKeys, projKey, List.getElem?_map,
      List.getElem?_eq_getElem hi, List.getD_eq_getElem?_getD]

theorem indexChoser_err {i : Nat} {k : DKey} (h : k.isMultipathK = true)
    (h2 : k.numDerPaths ≤ i) :
    indexChoser i k = .error .multipathDescLenMismatch := by
  cases k with
  | single n => simp [DKey.isMultipathK] at h
  | xpub n p => simp [DKey.isMultipathK] at h
  | multiXPub n steps =>
    have hi : steps.length ≤ i := h2
    have hnone : (DKey.multiXPub n steps).intoSingleKeys[i]? = none := by
      apply List.getElem?_eq_none
      simpa [DKey.intoSingleKeys] using hi
    simp [indexChoser, hnone]

theorem indexChoser_cases (i : Nat) (k : DKey) :
    indexChoser i k = .ok (projKey i k)
  ∨ indexChoser i k = .error .multipathDescLenMismatch := by
  by_cases h : k.isMultipathK = true → i < k.numDerPaths
  · exact Or.inl (indexChoser_ok h)
  · push_neg at h
    exact Or.inr (indexChoser_err h.1 h.2)

theorem msTrans_ok {P Q : Type} {f : P → Except Error Q} {g : P → Q}
    (m : Ms P) (h : ∀ k ∈ m.keys, f k = .ok (g k)) :
    m.translatePk f = .ok (m.mapKeys g) := by
  induction m with
  | pk k =>
    rw [Ms.translatePk, h k (by simp [Ms.keys])]
    rfl
  | andV l r ihl ihr =>
    rw [Ms.translatePk]
    rw [ihl fun k hk => h k (by simp [Ms.keys, hk]),
        ihr fun k hk => h k (by simp [Ms.keys, hk])]
    rfl
  | orD l r ihl ihr =>
    rw [Ms.translatePk]
    rw [ihl fun k hk => h k (by simp [Ms.keys, hk]),
        ihr fun k hk => h k (by simp [Ms.keys, hk])]
    rfl
  | extOp n => rfl

theorem msTrans_err {P Q : Type} {f : P → Except Error Q} {g : P → Q} {E : Error}
    (Hf : ∀ k, f k = .ok (g k) ∨ f k = .error E)
    (m : Ms P) (h : ∃ k ∈ m.keys, f k = .error E) :
    m.translatePk f = .error E := by
  induction m with
  | pk k =>
    obtain ⟨k2, hk2, he⟩ := h
    simp [Ms.keys] at hk2
    subst hk2
    rw [Ms.translatePk, he]
    rfl
  | andV l r ihl ihr =>
    obtain ⟨k2, hk2, he⟩ := h
    rw [Ms.translatePk]
    rcases (List.mem_append.mp (by simpa [Ms.keys] using hk2)) with hl | hr
    · rw [ihl ⟨k2, hl, he⟩]
    · by_cases hle : ∃ k ∈ l.keys, f k = .error E
      · rw [ihl hle]
      · push_neg at hle
        have : ∀ k ∈ l.keys, f k = .ok (g k) := fun k hk =>
          (Hf k).resolve_right (hle k hk)
        rw [msTrans_ok l this, ihr ⟨k2, hr, he⟩]
  | orD l r ihl ihr =>
    obtain ⟨k2, hk2, he⟩ := h
    rw [Ms.translatePk]
    rcases (List.mem_append.mp (by simpa [Ms.keys] using hk2)) with hl | hr
    · rw [ihl ⟨k2, hl, he⟩]
    · by_cases hle : ∃ k ∈ l.keys, f k = .error E
      · rw [ihl hle]
      · push_neg at hle
        have : ∀ k ∈ l.keys, f k = .ok (g k) := fun k hk =>
          (Hf k).resolve_right (hle k hk)
        rw [msTrans_ok l this, ihr ⟨k2, hr, he⟩]
  | extOp n =>
    obtain ⟨k2, hk2, he⟩ := h
    simp [Ms.keys] at hk2

theorem tapTrans_ok {P Q : Type} {f : P → Except Error Q} {g : P → Q}
    (t : TapTree P) (h : ∀ k ∈ t.keys, f k = .ok (g k)) :
    t.translatePk f = .ok (t.mapKeys g) := by
  induction t with
  | leaf m =>
    rw [TapTree.translatePk, msTrans_ok m (by simpa [TapTree.keys] using h)]
    rfl
  | node l r ihl ihr =>
    rw [TapTree.translatePk]
    rw [ihl fun k hk => h k (by simp [TapTree.keys, hk]),
        ihr fun k hk => h k (by simp [TapTree.keys, hk])]
    rfl

theorem tapTrans_err {P Q : Type} {f : P → Except Error Q} {g : P → Q} {E : Error}
    (Hf : ∀ k, f k = .ok (g k) ∨ f k = .error E)
    (t : TapTree P) (h : ∃ k ∈ t.keys, f k = .error E) :
    t.translatePk f = .error E := by
  induction t with
  | leaf m =>
    rw [TapTree.translatePk, msTrans_err Hf m (by simpa [TapTree.keys] using h)]
    rfl
  | node l r ihl ihr =>
    obtain ⟨k2, hk2, he⟩ := h
    rw [TapTree.translatePk]
    rcases (List.mem_append.mp (by simpa [TapTree.keys] using hk2)) with hl | hr
    · rw [ihl ⟨k2, hl, he⟩]
    · by_cases hle : ∃ k ∈ l.keys, f k = .error E
      · rw [ihl hle]
      · push_neg at hle
        have : ∀ k ∈ l.keys, f k = .ok (g k) := fun k hk =>
          (Hf k).resolve_right (hle k hk)
        rw [tapTrans_ok l this, ihr ⟨k2, hr, he⟩]

theorem transList_ok {P Q : Type} {f : P → Except Error Q} {g : P → Q}
    (l : List P) (h : ∀ k ∈ l, f k = .ok (g k)) :
    transList f l = .ok (l.map g) := by
  induction l with
  | nil => rfl
  | cons p ps ih =>
    rw [transList, h p (by simp), ih fun k hk => h k (by simp [hk])]
    rfl

theorem transList_err {P Q : Type} {f : P → Except Error Q} {g : P → Q} {E : Error}
    (Hf : ∀ k, f k = .ok (g k) ∨ f k = .error E)
    (l : List P) (h : ∃ k ∈ l, f k = .error E) :
    transList f l = .error E := by
  induction l with
  | nil => simp at h
  | cons p ps ih =>
    rw [transList]
    rcases Hf p with hp | hp
    · rw [hp]
      obtain ⟨k2, hk2, he⟩ := h
      rcases List.mem_cons.mp hk2 with rfl | hk2
      · rw [hp] at he
        exact absurd he (by simp)
      · rw [ih ⟨k2, hk2, he⟩]
    · rw [hp]

theorem wshInnerTrans_ok {f : DKey → Except Error DKey} {g : DKey → DKey}
    (w : WshInner DKey) (h : ∀ k ∈ w.keys, f k = .ok (g k)) :
    w.translatePk f = .ok (w.mapKeys g) := by
  cases w with
  | sortedMulti smv =>
    rw [WshInner.translatePk, SortedMultiVec.translatePk,
      transList_ok smv.pks (by simpa [WshInner.keys] using h)]
    rfl
  | ms m =>
    rw [WshInner.translatePk, msTrans_ok m (by simpa [WshInner.keys] using h)]
    rfl

theorem wshInnerTrans_err {f : DKey → Except Error DKey} {g : DKey → DKey} {E : Error}
    (Hf : ∀ k, f k = .ok (g k) ∨ f k = .error E)
    (w : WshInner DKey) (h : ∃ k ∈ w.keys, f k = .error E) :
    w.translatePk f = .error E := by
  cases w with
  | sortedMulti smv =>
    rw [WshInner.translatePk, SortedMultiVec.translatePk,
      transList_err Hf smv.pks (by simpa [WshInner.keys] using h)]
    rfl
  | ms m =>
    rw [WshInner.translatePk, msTrans_err Hf m (by simpa [WshInner.keys] using h)]
    rfl

theorem shInnerTrans_ok {f : DKey → Except Error DKey} {g : DKey → DKey}
    (sh : ShInner DKey) (h : ∀ k ∈ sh.keys, f k = .ok (g k)) :
    sh.translatePk f = .ok (sh.mapKeys g) := by
  cases sh with
  | wsh w =>
    rw [ShInner.translatePk, wshInnerTrans_ok w.inner (by simpa [ShInner.keys] using h)]
    rfl
  | wpkh w =>
    rw [ShInner.translatePk, h w.pk (by simp [ShInner.keys])]
    rfl
  | sortedMulti smv =>
    rw [ShInner.translatePk, SortedMultiVec.translatePk,
      transList_ok smv.pks (by simpa [ShInner.keys] using h)]
    rfl
  | ms m =>
    rw [ShInner.translatePk, msTrans_ok m (by simpa [ShInner.keys] using h)]
    rfl

theorem shInnerTrans_err {f : DKey → Except Error DKey} {g : DKey → DKey} {E : Error}
    (Hf : ∀ k, f k = .ok (g k) ∨ f k = .error E)
    (sh : ShInner DKey) (h : ∃ k ∈ sh.keys, f k = .error E) :
    sh.translatePk f = .error E := by
  cases sh with
  | wsh w =>
    rw [ShInner.translatePk, wshInnerTrans_err Hf w.inner (by simpa [ShInner.keys] using h)]
    rfl
  | wpkh w =>
    obtain ⟨k2, hk2, he⟩ := h
    simp [ShInner.keys] at hk2
    subst hk2
    rw [ShInner.translatePk, he]
    rfl
  | sortedMulti smv =>
    rw [ShInner.translatePk, SortedMultiVec.translatePk,
      transList_err Hf smv.pks (by simpa [ShInner.keys] using h)]
    rfl
  | ms m =>
    rw [ShInner.translatePk, msTrans_err Hf m (by simpa [ShInner.keys] using h)]
    rfl

theorem trTrans_ok {f : DKey → Except Error DKey} {g : DKey → DKey}
    (t : Tr DKey) (h : ∀ k ∈ t.keys, f k = .ok (g k)) :
    t.translatePk f = .ok ⟨g t.internalKey, t.tree.map (TapTree.mapKeys g)⟩ := by
  obtain ⟨ik, tree⟩ := t
  cases tree with
  | none =>
    rw [Tr.translatePk, h ik (by simp [Tr.keys])]
    rfl
  | some tt =>
    rw [Tr.translatePk, h ik (by simp [Tr.keys]),
      tapTrans_ok tt (fun k hk => h k (by simp [Tr.keys, hk]))]
    rfl

theorem trTrans_err {f : DKey → Except Error DKey} {g : DKey → DKey} {E : Error}
    (Hf : ∀ k, f k = .ok (g k) ∨ f k = .error E)
    (t : Tr DKey) (h : ∃ k ∈ t.keys, f k = .error E) :
    t.translatePk f = .error E := by
  obtain ⟨ik, tree⟩ := t
  obtain ⟨k2, hk2, he⟩ := h
  simp only [Tr.keys, List.mem_cons] at hk2
  cases tree with
  | none =>
    rcases hk2 with rfl | hk2
    · rw [Tr.translatePk, he]
    · simp at hk2
  | some tt =>
    rcases hk2 with rfl | hk2
    · rw [Tr.translatePk, he]
    · rcases Hf ik with hik | hik
      · rw [Tr.translatePk, hik,
          tapTrans_err Hf tt ⟨k2, by simpa using hk2, he⟩]
      · rw [Tr.translatePk, hik]

theorem descTrans_ok {f : DKey → Except Error DKey} {g : DKey → DKey}
    (d : Descriptor DKey) (h : ∀ k ∈ d.keyLeaves, f k = .ok (g k)) :
    d.translatePk f = .ok (d.mapKeys g) := by
  cases d with
  | bare b =>
    rw [Descriptor.translatePk, msTrans_ok b.ms (by simpa [Descriptor.keyLeaves] using h)]
    rfl
  | pkh p =>
    rw [Descriptor.translatePk, h p.pk (by simp [Descriptor.keyLeaves])]
    rfl
  | wpkh w =>
    rw [Descriptor.translatePk, h w.pk (by simp [Descriptor.keyLeaves])]
    rfl
  | sh s =>
    rw [Descriptor.translatePk, shInnerTrans_ok s.inner (by simpa [Descriptor.keyLeaves] using h)]
    rfl
  | wsh w =>
    rw [Descriptor.translatePk, wshInnerTrans_ok w.inner (by simpa [Descriptor.keyLeaves] using h)]
    rfl
  | tr t =>
    rw [Descriptor.translatePk, trTrans_ok t (by simpa [Descriptor.keyLeaves] using h)]
    rfl
  | trExt t =>
    rw [Descriptor.translatePk, trTrans_ok t (by simpa [Descriptor.keyLeaves] using h)]
    rfl
  | legacyCSFSCov c =>
    rw [Descriptor.translatePk]
    rw [h c.pk (by simp [Descriptor.keyLeaves, LegacyCSFSCov.keys])]
    rw [msTrans_ok c.ms (fun k hk =>
      h k (by simp [Descriptor.keyLeaves, LegacyCSFSCov.keys, hk]))]
    rfl

theorem descTrans_err {f : DKey → Except Error DKey} {g : DKey → DKey} {E : Error}
    (Hf : ∀ k, f k = .ok (g k) ∨ f k = .error E)
    (d : Descriptor DKey) (h : ∃ k ∈ d.keyLeaves, f k = .error E) :
    d.translatePk f = .error E := by
  cases d with
  | bare b =>
    rw [Descriptor.translatePk, msTrans_err Hf b.ms (by simpa [Descriptor.keyLeaves] using h)]
    rfl
  | pkh p =>
    obtain ⟨k2, hk2, he⟩ := h
    simp [Descriptor.keyLeaves] at hk2
    subst hk2
    rw [Descriptor.translatePk, he]
    rfl
  | wpkh w =>
    obtain ⟨k2, hk2, he⟩ := h
    simp [Descriptor.keyLeaves] at hk2
    subst hk2
    rw [Descriptor.translatePk, he]
    rfl
  | sh s =>
    rw [Descriptor.translatePk,
      shInnerTrans_err Hf s.inner (by simpa [Descriptor.keyLeaves] using h)]
    rfl
  | wsh w =>
    rw [Descriptor.translatePk,
      wshInnerTrans_err Hf w.inner (by simpa [Descriptor.keyLeaves] using h)]
    rfl
  | tr t =>
    rw [Descriptor.translatePk, trTrans_err Hf t (by simpa [Descriptor.keyLeaves] using h)]
    rfl
  | trExt t =>
    rw [Descriptor.translatePk, trTrans_err Hf t (by simpa [Descriptor.keyLeaves] using h)]
    rfl
  | legacyCSFSCov c =>
    obtain ⟨k2, hk2, he⟩ := h
    rw [Descriptor.translatePk]
    simp only [Descriptor.keyLeaves, LegacyCSFSCov.keys, List.mem_cons] at hk2
    rcases hk2 with rfl | hk2
    · rw [he]
    · rcases Hf c.pk with hik | hik
      · rw [hik, msTrans_err Hf c.ms ⟨k2, hk2, he⟩]
      · rw [hik]

theorem descTrans_index_cases (i : Nat) (d : Descriptor DKey) :
    d.translatePk (indexChoser i) = .ok (d.mapKeys (projKey i))
  ∨ d.translatePk (indexChoser i) = .error .multipathDescLenMismatch := by
  by_cases h : ∃ k ∈ d.keyLeaves, indexChoser i k = .error .multipathDescLenMismatch
  · exact Or.inr (descTrans_err (indexChoser_cases i) d h)
  · push_neg at h
    refine Or.inl (descTrans_ok d fun k hk => ?_)
    exact (indexChoser_cases i k).resolve_right (h k hk)

theorem transAll_ok {d : Descriptor DKey} {l : List Nat}
    (h : ∀ i ∈ l, d.translatePk (indexChoser i) = .ok (d.mapKeys (projKey i))) :
    transAll d l = .ok (l.map fun i => d.mapKeys (projKey i)) := by
  induction l with
  | nil => rfl
  | cons j js ih =>
    rw [transAll, h j (by simp), ih fun i hi => h i (by simp [hi])]
    rfl

theorem transAll_err {d : Descriptor DKey} {l : List Nat}
    (h : ∃ i ∈ l, d.translatePk (indexChoser i) = .error .multipathDescLenMismatch) :
    transAll d l = .error .multipathDescLenMismatch := by
  induction l with
  | nil => simp at h
  | cons j js ih =>
    obtain ⟨i, hi, he⟩ := h
    rw [transAll]
    rcases List.mem_cons.mp hi with rfl | hi
    · rw [he]
    · rcases descTrans_index_cases j d with hj | hj
      · rw [hj, ih ⟨i, hi, he⟩]
      · rw [hj]

/-- C3: `into_single_descriptors` returns the singleton of the
descriptor itself when no key leaf is multipath; when some leaf is
multipath and every multipath leaf reports `N` parallel paths, it
returns exactly the `N` descriptors obtained by replacing every
multipath leaf by its `i`-th single-path projection (single-path leaves
unchanged) for `i = 0 … N-1`; and when some multipath leaf offers fewer
projections than the first multipath leaf announces, it returns
`Error::MultipathDescLenMismatch`. -/
theorem C3_into_single_descriptors (d : Descriptor DKey) :
    ((∀ k ∈ d.keyLeaves, k.isMultipathK = false) → d.intoSingleDescriptors = .ok [d])
  ∧ (∀ N : Nat, (∃ k ∈ d.keyLeaves, k.isMultipathK = true) →
       (∀ k ∈ d.keyLeaves, k.isMultipathK = true → k.numDerPaths = N) →
       d.intoSingleDescriptors = .ok ((List.range N).map fun i => d.mapKeys (projKey i)))
  ∧ (∀ k0 : DKey, d.findFirstMulti = some k0 →
       (∃ k ∈ d.keyLeaves, k.isMultipathK = true ∧ k.numDerPaths < k0.numDerPaths) →
       d.intoSingleDescriptors = .error .multipathDescLenMismatch) := by
  refine ⟨?_, ?_, ?_⟩
  · intro h
    have : d.findFirstMulti = none := by
      rw [Descriptor.findFirstMulti, List.find?_eq_none]
      intro k hk
      simp [h k hk]
    rw [Descriptor.intoSingleDescriptors, this]
  · intro N hex hall
    obtain ⟨k1, hk1, hm1⟩ := hex
    have hsome : d.findFirstMulti.isSome := by
      rw [Descriptor.findFirstMulti, List.find?_isSome]
      exact ⟨k1, hk1, hm1⟩
    obtain ⟨k0, hk0⟩ := Option.isSome_iff_exists.mp hsome
    have hk0mem : k0 ∈ d.keyLeaves := List.mem_of_find?_eq_some hk0
    have hk0m : k0.isMultipathK = true := List.find?_some hk0
    have hk0n : k0.numDerPaths = N := hall k0 hk0mem hk0m
    rw [Descriptor.intoSingleDescriptors, hk0]
    show transAll d (List.range k0.numDerPaths) = _
    rw [hk0n]
    refine transAll_ok fun i hi => ?_
    refine descTrans_ok d fun k hk => ?_
    refine indexChoser_ok fun hm => ?_
    rw [hall k hk hm]
    exact List.mem_range.mp hi
  · intro k0 hk0 hex
    obtain ⟨k1, hk1, hm1, hlt⟩ := hex
    rw [Descriptor.intoSingleDescriptors, hk0]
    show transAll d (List.range k0.numDerPaths) = _
    refine transAll_err ⟨k1.numDerPaths, List.mem_range.mpr hlt, ?_⟩
    refine descTrans_err (indexChoser_cases _) d ⟨k1, hk1, ?_⟩
    exact indexChoser_err hm1 le_rfl

/-- C3 witness: a two-key, two-path multipath descriptor expands into
its two single-path projections. -/
theorem C3_into_single_descriptors_witness :
    (Descriptor.wsh ⟨.ms (.andV (.pk mk2) (.pk (.multiXPub (lit "P") [7, 8])))⟩
        : Descriptor DKey).intoSingleDescriptors =
      .ok ((List.range 2).map fun i =>
        (Descriptor.wsh ⟨.ms (.andV (.pk mk2) (.pk (.multiXPub (lit "P") [7, 8])))⟩
          : Descriptor DKey).mapKeys (projKey i)) :=
  (C3_into_single_descriptors _).2.1 2 (by decide) (by decide)

/-! ## Round-trip machinery for C1: the full parser inverts the
canonical rendering on well-formed descriptor values -/

/-- A `false` boolean is not `true`. -/
theorem neB {b : Bool} (h : b = false) : ¬ b = true := by
  simp [h]

/-- A rendered script term is nonempty. -/
theorem renderMs_len_pos (m : Ms Str) : 1 ≤ (renderMs id m).length := by
  cases m <;>
    simp only [renderMs, lit_pk, lit_andv, lit_ord, lit_ext, List.length_append,
      List.length_cons, List.length_nil] <;>
    omega

/-- With the trivial key operations every checker step is the identity
on the checker state (every key reports one derivation path). -/
theorem foldKeys_checkerStep_skOps (ks : List Str) (ch : Checker) :
    foldKeys (checkerStep skOps) ks ch = (ch, true) := by
  induction ks with
  | nil => rfl
  | cons k ks ih => exact ih

/-- The existential fold with the trivial checker also preserves the
state. -/
theorem anyKeys_checkerStep_skOps (ks : List Str) (ch : Checker) :
    (anyKeys (checkerStep skOps) ks ch).1 = ch := by
  cases ks with
  | nil => rfl
  | cons k ks => rfl

/-- Over the placeholder string keys (each reporting a single
derivation path) no descriptor has a multipath length mismatch. -/
theorem mismatch_skOps (d : Descriptor Str) :
    d.multipathLengthMismatch skOps = false := by
  cases d <;>
    simp [Descriptor.multipathLengthMismatch, Descriptor.forEachKeyM,
      foldKeys_checkerStep_skOps, anyKeys_checkerStep_skOps]

/-- One step of the taproot-tree parser on a brace-headed string. -/
theorem parseTree_step_node {Pk : Type} (pkP : Str → Except Error Pk) (allow : Bool)
    (f : Nat) (s : Str) :
    parseTree pkP allow (f + 1) ('{' :: s) =
      (match parseTree pkP allow f s with
       | .ok (l, ',' :: s2) =>
         match parseTree pkP allow f s2 with
         | .ok (r, '}' :: s3) => .ok (.node l r, s3)
         | _ => .error .badDescriptor
       | _ => .error .badDescriptor) := rfl

/-- On a string that does not open a brace, the taproot-tree parser
defers to the script-term parser. -/
theorem parseTree_step_leaf {Pk : Type} (pkP : Str → Except Error Pk) (allow : Bool)
    (f : Nat) (s : Str) (h : hPre (lit "\x7b") s = false) :
    parseTree pkP allow (f + 1) s =
      (match parseMs pkP allow (f + 1) s with
       | .ok (m, r) => .ok (.leaf m, r)
       | .error e => .error e) := by
  rw [parseTree, if_neg (neB h)]

/-- A rendered script term never starts with a brace. -/
theorem hPre_lbrace_renderMs (m : Ms Str) (r : Str) :
    hPre (lit "\x7b") (renderMs id m ++ r) = false := by
  cases m <;> rfl

/-- TREE-OK: the taproot-tree parser inverts the canonical tree
rendering when extension opcodes are allowed or absent. -/
theorem parseTree_render {t : TapTree Str} {rest : Str} {fuel : Nat} {allow : Bool}
    (hf : (renderTree id t).length ≤ fuel) (hw : t.wfS = true)
    (ha : allow = true ∨ t.extFree = true) :
    parseTree skParse allow fuel (renderTree id t ++ rest) = .ok (t, rest) := by
  induction t generalizing rest fuel with
  | leaf m =>
    have h1 : 1 ≤ (renderMs id m).length := renderMs_len_pos m
    have hf2 : (renderMs id m).length ≤ fuel := by
      simpa [renderTree] using hf
    obtain ⟨f, rfl⟩ : ∃ f, fuel = f + 1 := ⟨fuel - 1, by omega⟩
    have hr : renderTree id (TapTree.leaf m) ++ rest = renderMs id m ++ rest := rfl
    rw [hr, parseTree_step_leaf _ _ _ _ (hPre_lbrace_renderMs m rest),
      parseMs_render hf2 (by simpa [TapTree.wfS] using hw)
        (by simpa [TapTree.extFree] using ha)]
  | node l r ihl ihr =>
    rw [TapTree.wfS, Bool.and_eq_true] at hw
    have hlen : (renderTree id l).length + (renderTree id r).length + 3 ≤ fuel := by
      simp only [renderTree, List.length_append, List.length_cons] at hf
      omega
    obtain ⟨f, rfl⟩ : ∃ f, fuel = f + 1 := ⟨fuel - 1, by omega⟩
    have hstep : renderTree id (TapTree.node l r) ++ rest
        = '{' :: (renderTree id l ++ (',' :: (renderTree id r ++ '}' :: rest))) := by
      simp [renderTree]
    have hal : allow = true ∨ l.extFree = true := by
      rcases ha with h | h
      · exact Or.inl h
      · rw [TapTree.extFree, Bool.and_eq_true] at h
        exact Or.inr h.1
    have har : allow = true ∨ r.extFree = true := by
      rcases ha with h | h
      · exact Or.inl h
      · rw [TapTree.extFree, Bool.and_eq_true] at h
        exact Or.inr h.2
    have hl := @ihl (',' :: (renderTree id r ++ '}' :: rest)) f (by omega) hw.1 hal
    have hr2 := @ihr ('}' :: rest) f (by omega) hw.2 har
    rw [hstep, parseTree_step_node]
    simp only [hl, hr2]

/-- TREE-ERR: with extension opcodes disallowed, the taproot-tree
parser rejects the rendering of a tree containing one. -/
theorem parseTree_render_ext {t : TapTree Str} {rest : Str} {fuel : Nat}
    (hf : (renderTree id t).length ≤ fuel) (hw : t.wfS = true) (hx : t.extFree = false) :
    parseTree skParse false fuel (renderTree id t ++ rest) = .error .badDescriptor := by
  induction t generalizing rest fuel with
  | leaf m =>
    have h1 : 1 ≤ (renderMs id m).length := renderMs_len_pos m
    have hf2 : (renderMs id m).length ≤ fuel := by
      simpa [renderTree] using hf
    obtain ⟨f, rfl⟩ : ∃ f, fuel = f + 1 := ⟨fuel - 1, by omega⟩
    have hr : renderTree id (TapTree.leaf m) ++ rest = renderMs id m ++ rest := rfl
    rw [hr, parseTree_step_leaf _ _ _ _ (hPre_lbrace_renderMs m rest),
      parseMs_render_ext hf2 (by simpa [TapTree.wfS] using hw)
        (by simpa [TapTree.extFree] using hx)]
  | node l r ihl ihr =>
    rw [TapTree.wfS, Bool.and_eq_true] at hw
    rw [TapTree.extFree] at hx
    have hlen : (renderTree id l).length + (renderTree id r).length + 3 ≤ fuel := by
      simp only [renderTree, List.length_append, List.length_cons] at hf
      omega
    obtain ⟨f, rfl⟩ : ∃ f, fuel = f + 1 := ⟨fuel - 1, by omega⟩
    have hstep : renderTree id (TapTree.node l r) ++ rest
        = '{' :: (renderTree id l ++ (',' :: (renderTree id r ++ '}' :: rest))) := by
      simp [renderTree]
    rw [hstep, parseTree_step_node]
    by_cases hel : l.extFree = true
    · have hxr : r.extFree = false := by
        rw [hel] at hx
        simpa using hx
      have hl := @parseTree_render l (',' :: (renderTree id r ++ '}' :: rest)) f false
        (by omega) hw.1 (Or.inr hel)
      have hr2 := @ihr ('}' :: rest) f (by omega) hw.2 hxr
      simp only [hl, hr2]
    · have hxl : l.extFree = false := by
        simp at hel
        exact hel
      rw [@ihl (',' :: (renderTree id r ++ '}' :: rest)) f (by omega) hw.1 hxl]

/-- KEYS-OK: the key-list parser inverts the canonical key-list
rendering for a nonempty list of well-formed keys. -/
theorem parseKeys_render {ks : List Str} {rest : Str} {fuel : Nat}
    (hf : (renderKeysL id ks).length ≤ fuel) (hne : ks ≠ [])
    (hw : ∀ k ∈ ks, wfKeyS k = true) :
    parseKeys skParse fuel (renderKeysL id ks ++ rest) = .ok (ks, rest) := by
  induction ks generalizing rest fuel with
  | nil => exact absurd rfl hne
  | cons k ks ih =>
    have hk := wfKeyS_elim (hw k (List.mem_cons_self k ks))
    cases ks with
    | nil =>
      have hlen : 1 ≤ fuel := by
        simp only [renderKeysL, List.length_append, List.length_cons,
          List.length_nil] at hf
        omega
      obtain ⟨f, rfl⟩ : ∃ f, fuel = f + 1 := ⟨fuel - 1, by omega⟩
      have hstep : renderKeysL id [k] ++ rest = k ++ ')' :: rest := by
        simp [renderKeysL]
      rw [hstep, parseKeys,
        tokTake_append ')' rest hk.2 (by decide),
        tokDrop_append ')' rest hk.2 (by decide),
        skParse, if_neg hk.1]
      rfl
    | cons k2 ks2 =>
      have hkpos : 1 ≤ k.length := by
        cases hke : k with
        | nil => exact absurd hke hk.1
        | cons c cs => simp [hke]
      have hlen : (renderKeysL id (k2 :: ks2)).length + 2 ≤ fuel := by
        rw [renderKeysL] at hf
        · simp only [id_eq, List.length_append, List.length_cons] at hf
          omega
        · intro hcon
          exact absurd hcon (by simp)
      obtain ⟨f, rfl⟩ : ∃ f, fuel = f + 1 := ⟨fuel - 1, by omega⟩
      have hstep : renderKeysL id (k :: k2 :: ks2) ++ rest
          = k ++ ',' :: (renderKeysL id (k2 :: ks2) ++ rest) := by
        rw [renderKeysL]
        · simp
        · intro hcon
          exact absurd hcon (by simp)
      have hrec := @ih rest f (by omega) (by simp)
        (fun x hx => hw x (List.mem_cons_of_mem k hx))
      rw [hstep, parseKeys,
        tokTake_append ',' _ hk.2 (by decide),
        tokDrop_append ',' _ hk.2 (by decide),
        skParse, if_neg hk.1]
      simp only [hrec]

/-- SMV-OK: the `sortedmulti` argument parser inverts the canonical
rendering of threshold and key list. -/
theorem parseSmv_render {smv : SortedMultiVec Str} {rest : Str} {fuel : Nat}
    (hf : (renderKeysL id smv.pks).length ≤ fuel) (hw : smvWfS smv = true) :
    parseSmv skParse fuel
        (natRender smv.k ++ ',' :: (renderKeysL id smv.pks ++ rest))
      = .ok (smv, rest) := by
  obtain ⟨n, ks⟩ := smv
  obtain ⟨hne, hkw⟩ := smvWfS_elim hw
  rw [parseSmv,
    tokTake_append ',' _ (fun x hx => (natRender_chars n x hx).2) (by decide),
    tokDrop_append ',' _ (fun x hx => (natRender_chars n x hx).2) (by decide),
    natParse_natRender]
  simp only [parseKeys_render hf hne hkw]

/-- The `wsh` inner parser on a `sortedmulti(`-headed string. -/
theorem parseWshInner_step_smul {Pk : Type} (pkP : Str → Except Error Pk)
    (fuel : Nat) (X : Str) :
    parseWshInner pkP fuel (lit "sortedmulti(" ++ X) =
      (match parseSmv pkP fuel X with
       | .ok (smv, r) => .ok (.sortedMulti smv, r)
       | .error e => .error e) := rfl

/-- The `wsh` inner parser on a rendered script term (no recognized
prefix) defers to the script-term parser with extensions disallowed. -/
theorem parseWshInner_step_ms {Pk : Type} (pkP : Str → Except Error Pk)
    (fuel : Nat) (m : Ms Str) (r : Str) :
    parseWshInner pkP fuel (renderMs id m ++ r) =
      (match parseMs pkP false fuel (renderMs id m ++ r) with
       | .ok (m2, r2) => .ok (.ms m2, r2)
       | .error e => .error e) := by
  cases m <;> rfl

/-- The `sh` inner parser on a `wpkh(`-headed string. -/
theorem parseShInner_step_wpkh {Pk : Type} (pkP : Str → Except Error Pk)
    (fuel : Nat) (X : Str) :
    parseShInner pkP fuel (lit "wpkh(" ++ X) =
      (match pkP (tokTake X), tokDrop X with
       | .ok k, ')' :: r => .ok (.wpkh ⟨k⟩, r)
       | _, _ => .error .badDescriptor) := rfl

/-- The `sh` inner parser on a `wsh(`-headed string. -/
theorem parseShInner_step_wsh {Pk : Type} (pkP : Str → Except Error Pk)
    (fuel : Nat) (X : Str) :
    parseShInner pkP fuel (lit "wsh(" ++ X) =
      (match parseWshInner pkP fuel X with
       | .ok (wi, ')' :: r) => .ok (.wsh ⟨wi⟩, r)
       | _ => .error .badDescriptor) := rfl

/-- The `sh` inner parser on a `sortedmulti(`-headed string. -/
theorem parseShInner_step_smul {Pk : Type} (pkP : Str → Except Error Pk)
    (fuel : Nat) (X : Str) :
    parseShInner pkP fuel (lit "sortedmulti(" ++ X) =
      (match parseSmv pkP fuel X with
       | .ok (smv, r) => .ok (.sortedMulti smv, r)
       | .error e => .error e) := rfl

/-- The `sh` inner parser on a rendered script term defers to the
script-term parser with extensions disallowed. -/
theorem parseShInner_step_ms {Pk : Type} (pkP : Str → Except Error Pk)
    (fuel : Nat) (m : Ms Str) (r : Str) :
    parseShInner pkP fuel (renderMs id m ++ r) =
      (match parseMs pkP false fuel (renderMs id m ++ r) with
       | .ok (m2, r2) => .ok (.ms m2, r2)
       | .error e => .error e) := by
  cases m <;> rfl

/-- WSHI-OK: the `wsh` inner parser inverts the canonical rendering of
an extension-free well-formed `WshInner`. -/
theorem parseWshInner_render {w : WshInner Str} {rest : Str} {fuel : Nat}
    (hf : (renderWshInner id w).length ≤ fuel) (hw : w.wfS = true)
    (hx : w.extFreeW = true) :
    parseWshInner skParse fuel (renderWshInner id w ++ rest) = .ok (w, rest) := by
  cases w with
  | sortedMulti smv =>
    have hf2 : (renderKeysL id smv.pks).length ≤ fuel := by
      simp only [renderWshInner, renderSmv, List.length_append,
        List.length_cons] at hf
      omega
    have hstep : renderWshInner id (WshInner.sortedMulti smv) ++ rest
        = lit "sortedmulti("
            ++ (natRender smv.k ++ ',' :: (renderKeysL id smv.pks ++ rest)) := by
      simp [renderWshInner, renderSmv]
    rw [hstep, parseWshInner_step_smul]
    simp only [parseSmv_render hf2 hw]
  | ms m =>
    have hstep : renderWshInner id (WshInner.ms m) ++ rest
        = renderMs id m ++ rest := rfl
    have hf2 : (renderMs id m).length ≤ fuel := hf
    rw [hstep, parseWshInner_step_ms]
    simp only [@parseMs_render m rest fuel false hf2 hw (Or.inr hx)]

/-- SHI-OK: the `sh` inner parser inverts the canonical rendering of an
extension-free well-formed `ShInner`. -/
theorem parseShInner_render {i : ShInner Str} {rest : Str} {fuel : Nat}
    (hf : (renderShInner id i).length ≤ fuel) (hw : i.wfS = true)
    (hx : i.extFreeI = true) :
    parseShInner skParse fuel (renderShInner id i ++ rest) = .ok (i, rest) := by
  cases i with
  | wsh w =>
    have hf2 : (renderWshInner id w.inner).length ≤ fuel := by
      simp only [renderShInner, List.length_append, List.length_cons] at hf
      omega
    have hstep : renderShInner id (ShInner.wsh w) ++ rest
        = lit "wsh(" ++ (renderWshInner id w.inner ++ ')' :: rest) := by
      simp [renderShInner]
    rw [hstep, parseShInner_step_wsh]
    simp only [@parseWshInner_render w.inner (')' :: rest) fuel hf2 hw hx]
  | wpkh w =>
    have hk := wfKeyS_elim hw
    have hstep : renderShInner id (ShInner.wpkh w) ++ rest
        = lit "wpkh(" ++ (w.pk ++ ')' :: rest) := by
      simp [renderShInner]
    rw [hstep, parseShInner_step_wpkh,
      tokTake_append ')' rest hk.2 (by decide),
      tokDrop_append ')' rest hk.2 (by decide),
      skParse, if_neg hk.1]
    rfl
  | sortedMulti smv =>
    have hf2 : (renderKeysL id smv.pks).length ≤ fuel := by
      simp only [renderShInner, renderSmv, List.length_append,
        List.length_cons] at hf
      omega
    have hstep : renderShInner id (ShInner.sortedMulti smv) ++ rest
        = lit "sortedmulti("
            ++ (natRender smv.k ++ ',' :: (renderKeysL id smv.pks ++ rest)) := by
      simp [renderShInner, renderSmv]
    rw [hstep, parseShInner_step_smul]
    simp only [parseSmv_render hf2 hw]
  | ms m =>
    have hstep : renderShInner id (ShInner.ms m) ++ rest
        = renderMs id m ++ rest := rfl
    have hf2 : (renderMs id m).length ≤ fuel := hf
    rw [hstep, parseShInner_step_ms]
    simp only [@parseMs_render m rest fuel false hf2 hw (Or.inr hx)]

/-- `Display` of a descriptor, with the `let` unfolded. -/
theorem renderDesc_def {Pk : Type} (rk : Pk → Str) (d : Descriptor Pk) :
    renderDesc rk d = renderBody rk d ++ '#' :: checksum (renderBody rk d) := rfl

/-- The `Tr` and `TrExt` variants of one payload render identically. -/
theorem renderBody_trExt (t : Tr Str) :
    renderBody id (Descriptor.trExt t) = renderBody id (Descriptor.tr t) := rfl

/-- The `Tr` and `TrExt` variants of one payload display identically. -/
theorem renderDesc_trExt (t : Tr Str) :
    renderDesc id (Descriptor.trExt t) = renderDesc id (Descriptor.tr t) := rfl

/-- `Tr::from_str` on a string whose checksum-verified body opens
`eltr(`. -/
theorem trParse_step {Pk : Type} (pkP : Str → Except Error Pk) (allow : Bool)
    {s X : Str} (hv : verifyChecksum s = .ok (lit "eltr(" ++ X)) :
    trParse pkP allow s =
      (match pkP (tokTake X), tokDrop X with
       | .ok k, ')' :: r =>
         if r = [] then .ok (⟨k, none⟩ : Tr Pk) else .error .badDescriptor
       | .ok k, ',' :: s2 =>
         match parseTree pkP allow s2.length s2 with
         | .ok (t2, ')' :: r) =>
           if r = [] then .ok (⟨k, some t2⟩ : Tr Pk) else .error .badDescriptor
         | _ => .error .badDescriptor
       | _, _ => .error .badDescriptor) := by
  rw [trParse, hv]
  rfl

/-- TR-OK: `Tr::from_str` inverts the canonical display of a
well-formed `Tr` payload when extensions are allowed or absent. -/
theorem trParse_render {t : Tr Str} {allow : Bool} (hw : t.wfS = true)
    (ha : allow = true ∨ t.extFree = true) :
    trParse skParse allow (renderDesc id (Descriptor.tr t)) = .ok t := by
  have hv := verifyChecksum_render (renderBody id (Descriptor.tr t))
    (noHash_renderTrBody hw)
  obtain ⟨ik, tree⟩ := t
  have hwk : wfKeyS ik = true := by
    rw [Tr.wfS, Bool.and_eq_true] at hw
    exact hw.1
  obtain ⟨hik1, hik2⟩ := wfKeyS_elim hwk
  cases tree with
  | none =>
    have hb : renderBody id (Descriptor.tr ⟨ik, none⟩)
        = lit "eltr(" ++ (ik ++ [')']) := by
      simp [renderBody]
    rw [hb] at hv
    rw [renderDesc_def, hb, trParse_step skParse allow hv,
      tokTake_append ')' [] hik2 (by decide),
      tokDrop_append ')' [] hik2 (by decide),
      skParse, if_neg hik1]
    rfl
  | some tt =>
    have hwt : tt.wfS = true := by
      rw [Tr.wfS, Bool.and_eq_true] at hw
      exact hw.2
    have hat : allow = true ∨ tt.extFree = true := by
      rcases ha with h | h
      · exact Or.inl h
      · right
        rw [Tr.extFree] at h
        exact h
    have hb : renderBody id (Descriptor.tr ⟨ik, some tt⟩)
        = lit "eltr(" ++ (ik ++ ',' :: (renderTree id tt ++ [')'])) := by
      simp [renderBody]
    rw [hb] at hv
    rw [renderDesc_def, hb, trParse_step skParse allow hv,
      tokTake_append ',' _ hik2 (by decide),
      tokDrop_append ',' _ hik2 (by decide),
      skParse, if_neg hik1]
    have hpt := @parseTree_render tt [')'] ((renderTree id tt).length + 1) allow
      (by omega) hwt hat
    simp [hpt]

/-- TR-ERR: the extension-free `Tr::from_str` rejects the display of a
payload whose tree uses an extension opcode. -/
theorem trParse_render_ext {t : Tr Str} (hw : t.wfS = true) (hx : t.extFree = false) :
    trParse skParse false (renderDesc id (Descriptor.trExt t)) = .error .badDescriptor := by
  have hv := verifyChecksum_render (renderBody id (Descriptor.tr t))
    (noHash_renderTrBody hw)
  obtain ⟨ik, tree⟩ := t
  have hwk : wfKeyS ik = true := by
    rw [Tr.wfS, Bool.and_eq_true] at hw
    exact hw.1
  obtain ⟨hik1, hik2⟩ := wfKeyS_elim hwk
  cases tree with
  | none => exact absurd hx (by simp [Tr.extFree])
  | some tt =>
    have hwt : tt.wfS = true := by
      rw [Tr.wfS, Bool.and_eq_true] at hw
      exact hw.2
    have hxt : tt.extFree = false := by
      rw [Tr.extFree] at hx
      exact hx
    have hb : renderBody id (Descriptor.tr ⟨ik, some tt⟩)
        = lit "eltr(" ++ (ik ++ ',' :: (renderTree id tt ++ [')'])) := by
      simp [renderBody]
    rw [hb] at hv
    rw [renderDesc_trExt, renderDesc_def, hb, trParse_step skParse false hv,
      tokTake_append ',' _ hik2 (by decide),
      tokDrop_append ',' _ hik2 (by decide),
      skParse, if_neg hik1]
    have hpt := @parseTree_render_ext tt [')'] ((renderTree id tt).length + 1)
      (by omega) hwt hxt
    simp [hpt]

/-- `parseBody` on an `elpkh(`-headed body. -/
theorem parseBody_step_pkh {Pk : Type} (pkP : Str → Except Error Pk) (X : Str) :
    parseBody pkP (lit "elpkh(" ++ X) =
      (match pkP (tokTake X), tokDrop X with
       | .ok k, [')'] => .ok (.pkh ⟨k⟩)
       | _, _ => .error .badDescriptor) := rfl

/-- `parseBody` on an `elwpkh(`-headed body. -/
theorem parseBody_step_wpkh {Pk : Type} (pkP : Str → Except Error Pk) (X : Str) :
    parseBody pkP (lit "elwpkh(" ++ X) =
      (match pkP (tokTake X), tokDrop X with
       | .ok k, [')'] => .ok (.wpkh ⟨k⟩)
       | _, _ => .error .badDescriptor) := rfl

/-- `parseBody` on an `elsh(`-headed body. -/
theorem parseBody_step_sh {Pk : Type} (pkP : Str → Except Error Pk) (X : Str) :
    parseBody pkP (lit "elsh(" ++ X) =
      (match parseShInner pkP (lit "elsh(" ++ X).length X with
       | .ok (i, [')']) => .ok (.sh ⟨i⟩)
       | _ => .error .badDescriptor) := rfl

/-- `parseBody` on an `elwsh(`-headed body. -/
theorem parseBody_step_wsh {Pk : Type} (pkP : Str → Except Error Pk) (X : Str) :
    parseBody pkP (lit "elwsh(" ++ X) =
      (match parseWshInner pkP (lit "elwsh(" ++ X).length X with
       | .ok (i, [')']) => .ok (.wsh ⟨i⟩)
       | _ => .error .badDescriptor) := rfl

/-- `parseBody` on an `elcovwsh(`-headed body. -/
theorem parseBody_step_cov {Pk : Type} (pkP : Str → Except Error Pk) (X : Str) :
    parseBody pkP (lit "elcovwsh(" ++ X) =
      (match pkP (tokTake X), tokDrop X with
       | .ok k, ',' :: s2 =>
         match parseMs pkP true s2.length s2 with
         | .ok (m, [')']) => .ok (.legacyCSFSCov ⟨k, m⟩)
         | _ => .error .badDescriptor
       | _, _ => .error .badDescriptor) := rfl

/-- `parseBody` on a bare body (the `el` prefix followed by a rendered
script term, matching no other template). -/
theorem parseBody_step_bare {Pk : Type} (pkP : Str → Except Error Pk) (m : Ms Str) :
    parseBody pkP (lit "el" ++ renderMs id m) =
      (match parseMs pkP false (lit "el" ++ renderMs id m).length (renderMs id m) with
       | .ok (m2, []) => .ok (.bare ⟨m2⟩)
       | _ => .error .badDescriptor) := by
  cases m <;> rfl

/-- BODY-OK: `parseBody` inverts the canonical body rendering of every
constructible non-taproot descriptor. -/
theorem parseBody_render {d : Descriptor Str} (hwf : d.wfS = true)
    (hnt : ∀ t : Tr Str, d ≠ .tr t ∧ d ≠ .trExt t) :
    parseBody skParse (renderBody id d) = .ok d := by
  cases d with
  | bare b =>
    obtain ⟨m⟩ := b
    rw [Descriptor.wfS, Bool.and_eq_true] at hwf
    have hb : renderBody id (Descriptor.bare ⟨m⟩) = lit "el" ++ renderMs id m := rfl
    have hms := @parseMs_render m [] ((lit "el" ++ renderMs id m).length) false
      (by simp only [lit_el, List.length_append, List.length_cons]; omega) hwf.1 (Or.inr hwf.2)
    rw [List.append_nil] at hms
    rw [hb, parseBody_step_bare]
    simp only [hms]
  | pkh p =>
    obtain ⟨k⟩ := p
    have hk := wfKeyS_elim (by simpa [Descriptor.wfS] using hwf)
    have hb : renderBody id (Descriptor.pkh ⟨k⟩) = lit "elpkh(" ++ (k ++ [')']) := by
      simp [renderBody]
    rw [hb, parseBody_step_pkh,
      tokTake_append ')' [] hk.2 (by decide),
      tokDrop_append ')' [] hk.2 (by decide),
      skParse, if_neg hk.1]
    rfl
  | wpkh w =>
    obtain ⟨k⟩ := w
    have hk := wfKeyS_elim (by simpa [Descriptor.wfS] using hwf)
    have hb : renderBody id (Descriptor.wpkh ⟨k⟩) = lit "elwpkh(" ++ (k ++ [')']) := by
      simp [renderBody]
    rw [hb, parseBody_step_wpkh,
      tokTake_append ')' [] hk.2 (by decide),
      tokDrop_append ')' [] hk.2 (by decide),
      skParse, if_neg hk.1]
    rfl
  | sh s =>
    obtain ⟨i⟩ := s
    rw [Descriptor.wfS, Bool.and_eq_true] at hwf
    have hb : renderBody id (Descriptor.sh ⟨i⟩)
        = lit "elsh(" ++ (renderShInner id i ++ [')']) := by
      simp [renderBody]
    have hsi := @parseShInner_render i [')']
      ((lit "elsh(" ++ (renderShInner id i ++ [')'])).length)
      (by simp only [lit_elsh, List.length_append, List.length_cons]; omega) hwf.1 hwf.2
    rw [hb, parseBody_step_sh]
    simp only [hsi]
  | wsh w =>
    obtain ⟨i⟩ := w
    rw [Descriptor.wfS, Bool.and_eq_true] at hwf
    have hb : renderBody id (Descriptor.wsh ⟨i⟩)
        = lit "elwsh(" ++ (renderWshInner id i ++ [')']) := by
      simp [renderBody]
    have hwi := @parseWshInner_render i [')']
      ((lit "elwsh(" ++ (renderWshInner id i ++ [')'])).length)
      (by simp only [lit_elwsh, List.length_append, List.length_cons]; omega) hwf.1 hwf.2
    rw [hb, parseBody_step_wsh]
    simp only [hwi]
  | tr t => exact absurd rfl (hnt t).1
  | trExt t => exact absurd rfl (hnt t).2
  | legacyCSFSCov c =>
    obtain ⟨k, m⟩ := c
    rw [Descriptor.wfS, Bool.and_eq_true] at hwf
    have hk := wfKeyS_elim hwf.1
    have hb : renderBody id (Descriptor.legacyCSFSCov ⟨k, m⟩)
        = lit "elcovwsh(" ++ (k ++ ',' :: (renderMs id m ++ [')'])) := by
      simp [renderBody]
    have hms := @parseMs_render m [')'] ((renderMs id m).length + 1) true
      (by omega) hwf.2 (Or.inl rfl)
    rw [hb, parseBody_step_cov,
      tokTake_append ',' _ hk.2 (by decide),
      tokDrop_append ',' _ hk.2 (by decide),
      skParse, if_neg hk.1]
    simp [hms]

/-- `from_str` on an `el`-prefixed string that is not `eltr`-prefixed:
verify the checksum, parse the body, reject a multipath mismatch. -/
theorem fromStrC_notr_step {Pk : Type} (kops : KeyOps Pk)
    (pkP : Str → Except Error Pk) {s : Str}
    (h2 : hPre (lit "el") s = true) (h4 : hPre (lit "eltr") s = false) :
    fromStrC kops pkP s =
      (match ((match verifyChecksum s with
               | .error e => .error e
               | .ok body => parseBody pkP body) : Except Error (Descriptor Pk)) with
       | .ok d =>
         if d.multipathLengthMismatch kops then .error .multipathDescLenMismatch
         else .ok d
       | .error e => .error e) := by
  rw [fromStrC, if_neg (by simp [h2]), if_neg (by simp [h4])]

/-- C1: round trip of the string format.  For every well-formed
descriptor value constructible by this core — with the sole exception,
recorded in `C1_counterexample`, of a `TrExt` descriptor whose
serialized body is extension-free — `from_str` applied to the canonical
`Display` output (body, `#`, checksum) returns the original value. -/
theorem C1_roundtrip_amended (d : Descriptor Str) (hwf : d.wfS = true)
    (hne : ∀ t : Tr Str, d = .trExt t → t.extFree = false) :
    fromStrC skOps skParse (renderDesc id d) = .ok d := by
  cases d with
  | bare b =>
    obtain ⟨m⟩ := b
    have h2 : hPre (lit "el") (renderDesc id (Descriptor.bare ⟨m⟩)) = true := by
      cases m <;> rfl
    have h4 : hPre (lit "eltr") (renderDesc id (Descriptor.bare ⟨m⟩)) = false := by
      cases m <;> rfl
    rw [fromStrC_notr_step skOps skParse h2 h4, renderDesc_def]
    simp [verifyChecksum_render _ (noHash_renderBody hwf),
      parseBody_render hwf (fun t => ⟨(fun h => nomatch h), (fun h => nomatch h)⟩),
      mismatch_skOps]
  | pkh p =>
    have h2 : hPre (lit "el") (renderDesc id (Descriptor.pkh p)) = true := rfl
    have h4 : hPre (lit "eltr") (renderDesc id (Descriptor.pkh p)) = false := rfl
    rw [fromStrC_notr_step skOps skParse h2 h4, renderDesc_def]
    simp [verifyChecksum_render _ (noHash_renderBody hwf),
      parseBody_render hwf (fun t => ⟨(fun h => nomatch h), (fun h => nomatch h)⟩),
      mismatch_skOps]
  | wpkh w =>
    have h2 : hPre (lit "el") (renderDesc id (Descriptor.wpkh w)) = true := rfl
    have h4 : hPre (lit "eltr") (renderDesc id (Descriptor.wpkh w)) = false := rfl
    rw [fromStrC_notr_step skOps skParse h2 h4, renderDesc_def]
    simp [verifyChecksum_render _ (noHash_renderBody hwf),
      parseBody_render hwf (fun t => ⟨(fun h => nomatch h), (fun h => nomatch h)⟩),
      mismatch_skOps]
  | sh s =>
    have h2 : hPre (lit "el") (renderDesc id (Descriptor.sh s)) = true := rfl
    have h4 : hPre (lit "eltr") (renderDesc id (Descriptor.sh s)) = false := rfl
    rw [fromStrC_notr_step skOps skParse h2 h4, renderDesc_def]
    simp [verifyChecksum_render _ (noHash_renderBody hwf),
      parseBody_render hwf (fun t => ⟨(fun h => nomatch h), (fun h => nomatch h)⟩),
      mismatch_skOps]
  | wsh w =>
    have h2 : hPre (lit "el") (renderDesc id (Descriptor.wsh w)) = true := rfl
    have h4 : hPre (lit "eltr") (renderDesc id (Descriptor.wsh w)) = false := rfl
    rw [fromStrC_notr_step skOps skParse h2 h4, renderDesc_def]
    simp [verifyChecksum_render _ (noHash_renderBody hwf),
      parseBody_render hwf (fun t => ⟨(fun h => nomatch h), (fun h => nomatch h)⟩),
      mismatch_skOps]
  | legacyCSFSCov c =>
    have h2 : hPre (lit "el") (renderDesc id (Descriptor.legacyCSFSCov c)) = true := rfl
    have h4 : hPre (lit "eltr") (renderDesc id (Descriptor.legacyCSFSCov c)) = false := rfl
    rw [fromStrC_notr_step skOps skParse h2 h4, renderDesc_def]
    simp [verifyChecksum_render _ (noHash_renderBody hwf),
      parseBody_render hwf (fun t => ⟨(fun h => nomatch h), (fun h => nomatch h)⟩),
      mismatch_skOps]
  | tr t =>
    rw [Descriptor.wfS, Bool.and_eq_true] at hwf
    have hpre : hPre (lit "eltr") (renderDesc id (Descriptor.tr t)) = true := by
      obtain ⟨ik, tree⟩ := t
      cases tree <;> rfl
    obtain ⟨u1, e1, ha1⟩ := hPre_cons_elim hpre
    obtain ⟨u2, rfl, hb1⟩ := hPre_cons_elim ha1
    obtain ⟨u3, rfl, hc1⟩ := hPre_cons_elim hb1
    obtain ⟨u4, rfl, -⟩ := hPre_cons_elim hc1
    rw [e1, fromStrC_eltr_step, ← e1, trParse_render hwf.1 (Or.inr hwf.2)]
    simp [mismatch_skOps]
  | trExt t =>
    have hx : t.extFree = false := hne t rfl
    have hw2 : t.wfS = true := by simpa [Descriptor.wfS] using hwf
    have hpre : hPre (lit "eltr") (renderDesc id (Descriptor.trExt t)) = true := by
      obtain ⟨ik, tree⟩ := t
      cases tree <;> rfl
    obtain ⟨u1, e1, ha1⟩ := hPre_cons_elim hpre
    obtain ⟨u2, rfl, hb1⟩ := hPre_cons_elim ha1
    obtain ⟨u3, rfl, hc1⟩ := hPre_cons_elim hb1
    obtain ⟨u4, rfl, -⟩ := hPre_cons_elim hc1
    rw [e1, fromStrC_eltr_step, ← e1]
    simp only [trParse_render_ext hw2 hx]
    simp [renderDesc_trExt, trParse_render hw2 (Or.inl rfl), mismatch_skOps]

/-- C1 witness: the round trip at a concrete `sh(wpkh(..))`
descriptor. -/
theorem C1_roundtrip_amended_witness :
    (Descriptor.sh ⟨.wpkh ⟨lit "A"⟩⟩ : Descriptor Str).wfS = true ∧
    fromStrC skOps skParse
        (renderDesc id (Descriptor.sh ⟨.wpkh ⟨lit "A"⟩⟩ : Descriptor Str))
      = .ok (Descriptor.sh ⟨.wpkh ⟨lit "A"⟩⟩) :=
  ⟨by decide, C1_roundtrip_amended _ (by decide) (fun t h => nomatch h)⟩

end ElementsDescriptor
